import Mathlib

/-!
Verification development for the `omgfm` package: a shallow embedding of the
processor pipeline (`omgfm/processors.py`, `omgfm/renderers.py`) and of the
document-tree helpers it relies on (`omgfm/ast_tools.py`), together with
theorems settling the specification claims about that code.
-/

namespace Omgfm

/-- Python exception kinds that can be raised by the code paths modelled here. -/
inductive PyErr where
  | valueError
  | typeError
  | attributeError
  | indexError
deriving DecidableEq, Repr

/-- Python string-like values.  The C binding hands byte strings (`bytes`) to
Python, which are decoded to `str` by `ast_tools.from_c_string`; both carry the
same character content in this model, but the tag matters because calling
`.decode` on an already-decoded `str` raises `AttributeError` in Python 3. -/
inductive PyStrVal where
  | pystr (s : String)
  | pybytes (s : String)
deriving DecidableEq, Repr

/-- The whitespace characters recognised by Python `str.strip()` and by the
regex class `\s` on the ASCII inputs considered here. -/
def pyIsSpace (c : Char) : Bool :=
  c = ' ' || c = '\t' || c = '\n' || c = '\r' || c = '\x0b' || c = '\x0c'

/-- Python `str.strip()` on a character list: drop whitespace at both ends. -/
def pyStripList (s : List Char) : List Char :=
  ((s.dropWhile pyIsSpace).reverse.dropWhile pyIsSpace).reverse

/-- Python `str.strip()`. -/
def pyStrip (s : String) : String := ⟨pyStripList s.toList⟩

/-- Python `str.split(sep)` for a one-character separator, on char lists:
split at every occurrence, keeping empty pieces. -/
def pySplitCharList (sep : Char) : List Char → List (List Char)
  | [] => [[]]
  | c :: rest =>
    let r := pySplitCharList sep rest
    if c = sep then [] :: r
    else
      match r with
      | [] => [[c]]
      | h :: t => (c :: h) :: t

/-- Python `str.split(sep)` for a one-character separator. -/
def pySplitChar (s : String) (sep : Char) : List String :=
  (pySplitCharList sep s.toList).map (fun l => ⟨l⟩)

/-- Python `dict` assignment `d[k] = v` on an insertion-ordered association
list: an existing key keeps its position and gets the new value, a new key is
appended at the end. -/
def pyDictSet (d : List (String × String)) (k v : String) : List (String × String) :=
  if d.any (fun p => p.1 = k) then d.map (fun p => if p.1 = k then (k, v) else p)
  else d ++ [(k, v)]

/-- Embedding of `ExtractMetadata.key_value_to_dict` (processors.py lines
173-192) with the default delimiter `':'`.  Receiving `None` (the `metadata`
variable when the front-matter pattern did not match) raises `AttributeError`
at `string.split('\n')`; a stripped non-empty line with no delimiter raises
`IndexError` at `line[1]`.  Note `line.split(delimiter)` splits at every
delimiter and only parts 0 and 1 are used, and the parts are not stripped
individually - only the whole line was stripped. -/
def key_value_to_dict (string : Option String) : Except PyErr (List (String × String)) :=
  match string with
  | none => .error .attributeError
  | some s =>
    List.foldlM
      (fun data line =>
        let line := pyStrip line
        if line ≠ "" then
          match pySplitChar line ':' with
          | p0 :: p1 :: _ => .ok (pyDictSet data p0 p1)
          | _ => .error .indexError
        else .ok data)
      [] (pySplitChar s '\n')

/-! ### A small backtracking engine for the Python `re` fragment used here

`ExtractMetadata.process_input` matches the raw pattern
`(-{3,}[\r\n]((.*\s*[\r\n])+?)^-{3,}[\r\n])((.*[\r\n]*)+)` with `re.MULTILINE`
via `re.search`.  The engine below implements exactly the constructs this
pattern uses, with Python semantics: leftmost search, greedy and lazy
unbounded repetition (a repetition stops iterating once its body matches
empty), capturing groups recording the last completed match, `.` matching
anything but a newline, and multiline `^` matching at the string start or
right after a newline. -/

/-- Regex abstract syntax for the fragment of Python `re` used in
`processors.py`. -/
inductive Re where
  | chr (c : Char)
  | cls (p : Char → Bool)
  | dot
  | bol
  | seq (a b : Re)
  | rep (lo : Nat) (lz : Bool) (a : Re)
  | group (idx : Nat) (a : Re)

/-- Capture store: group index, start offset, end offset; latest entry wins. -/
abbrev Caps := List (Nat × Nat × Nat)

/-- Record a completed capture for group `i` spanning `[a, b)`. -/
def setCap (caps : Caps) (i a b : Nat) : Caps := (i, a, b) :: caps

/-- Look up the most recent capture for group `i`. -/
def getCap (caps : Caps) (i : Nat) : Option (Nat × Nat) :=
  (caps.find? (fun t => t.1 == i)).map (fun t => (t.2.1, t.2.2))

/-- Backtracking matcher in continuation-passing style.  `k` receives the
position and captures after the current sub-pattern; returning `none` from `k`
makes the matcher backtrack into earlier alternatives.  The fuel parameter
bounds the depth of nested calls and is chosen large enough to be irrelevant
on the inputs considered (each repetition iteration consumes at least one
character or ends the repetition). -/
def reMatch (s : List Char) : Nat → Re → Nat → Caps → (Nat → Caps → Option Caps) → Option Caps
  | 0, _, _, _, _ => none
  | fuel + 1, re, pos, caps, k =>
    match re with
    | .chr c =>
      match s.get? pos with
      | some c2 => if c2 = c then k (pos + 1) caps else none
      | none => none
    | .cls p =>
      match s.get? pos with
      | some c2 => if p c2 then k (pos + 1) caps else none
      | none => none
    | .dot =>
      match s.get? pos with
      | some c2 => if c2 = '\n' then none else k (pos + 1) caps
      | none => none
    | .bol =>
      if pos = 0 then k pos caps
      else
        match s.get? (pos - 1) with
        | some c2 => if c2 = '\n' then k pos caps else none
        | none => none
    | .seq a b => reMatch s fuel a pos caps (fun p c => reMatch s fuel b p c k)
    | .group i a => reMatch s fuel a pos caps (fun p c => k p (setCap c i pos p))
    | .rep lo lz a =>
      match lo with
      | n + 1 => reMatch s fuel a pos caps (fun p c => reMatch s fuel (.rep n lz a) p c k)
      | 0 =>
        if lz then
          match k pos caps with
          | some r => some r
          | none =>
            reMatch s fuel a pos caps (fun p c =>
              if p = pos then none else reMatch s fuel (.rep 0 lz a) p c k)
        else
          match reMatch s fuel a pos caps (fun p c =>
              if p = pos then k p c else reMatch s fuel (.rep 0 lz a) p c k) with
          | some r => some r
          | none => k pos caps

/-- Fuel bound used for matching in `s`: generous, see `reMatch`. -/
def reFuel (s : List Char) : Nat := (s.length + 4) * (s.length + 4) * (s.length + 4)

/-- Try to match `re` at `pos`, `pos + 1`, ... for `n` start offsets. -/
def reSearchFrom (s : List Char) (re : Re) : Nat → Nat → Option Caps
  | 0, _ => none
  | n + 1, pos =>
    match reMatch s (reFuel s) re pos [] (fun p c => some (setCap c 0 pos p)) with
    | some r => some r
    | none => reSearchFrom s re n (pos + 1)

/-- Python `matcher.search(text)`: leftmost match, with captures; every start
offset up to and including the end of the string is tried. -/
def reSearch (s : List Char) (re : Re) : Option Caps :=
  reSearchFrom s re (s.length + 1) 0

/-- Character class `[\r\n]`. -/
def nlClass : Re := .cls (fun c => c = '\r' || c = '\n')

/-- Character class `\s`. -/
def wsClass : Re := .cls pyIsSpace

/-- The front-matter pattern of `ExtractMetadata.process_input`
(processors.py line 162):
`(-{3,}[\r\n]((.*\s*[\r\n])+?)^-{3,}[\r\n])((.*[\r\n]*)+)`, compiled with
`re.MULTILINE`.  Group 2 is the metadata body, group 4 the remaining text. -/
def patern : Re :=
  .seq
    (.group 1 (.seq (.rep 3 false (.chr '-')) (.seq nlClass (.seq
      (.group 2 (.rep 1 true
        (.group 3 (.seq (.rep 0 false .dot) (.seq (.rep 0 false wsClass) nlClass)))))
      (.seq .bol (.seq (.rep 3 false (.chr '-')) nlClass))))))
    (.group 4 (.rep 1 false (.group 5 (.seq (.rep 0 false .dot) (.rep 0 false nlClass)))))

/-- Extract the text captured by group `i`. -/
def capSubstr (s : List Char) (caps : Caps) (i : Nat) : Option String :=
  (getCap caps i).map (fun ab => ⟨(s.drop ab.1).take (ab.2 - ab.1)⟩)

/-- Embedding of `ExtractMetadata.process_input` (processors.py lines 145-171)
with the default loader `key_value_to_dict`: search the front-matter pattern;
on a match, group 2 becomes the `metadata` string and group 4 replaces the
text, otherwise `metadata` stays `None`; then the loader runs on `metadata`
(raising `AttributeError` on `None`) and the pair (processed text, data) is
produced. -/
def extractMetadataDefault (text : String) : Except PyErr (String × List (String × String)) :=
  let s := text.toList
  let mdText : Option String × String :=
    match reSearch s patern with
    | some caps => (capSubstr s caps 2, (capSubstr s caps 4).getD text)
    | none => (none, text)
  match key_value_to_dict mdText.1 with
  | .ok data => .ok (mdText.2, data)
  | .error e => .error e

/-! ### Processor registries (`renderers.py`, class `CommonMark`) -/

/-- A registration entry, the dict `{'name': name, 'processor': processor}`
built by `CommonMark._register_processor`; the processor callable is opaque
here and represented by a token. -/
structure ProcEntry where
  name : String
  processor : Nat
deriving DecidableEq, Repr

/-- The `_processors` attribute of a `CommonMark` instance:
`{'before_parse': [...], 'after_parse': [...]}`. -/
structure Registries where
  before_parse : List ProcEntry
  after_parse : List ProcEntry
deriving DecidableEq, Repr

/-- The registries of a fresh `CommonMark()` instance. -/
def Registries.init : Registries := ⟨[], []⟩

/-- The two hook points. -/
inductive Hook where
  | before_parse
  | after_parse
deriving DecidableEq, Repr

/-- Read one hook's registry. -/
def Registries.get (regs : Registries) : Hook → List ProcEntry
  | .before_parse => regs.before_parse
  | .after_parse => regs.after_parse

/-- Replace one hook's registry. -/
def Registries.put (regs : Registries) : Hook → List ProcEntry → Registries
  | .before_parse, l => { regs with before_parse := l }
  | .after_parse, l => { regs with after_parse := l }

/-- Python `list.insert(i, x)`: negative indices count from the end and
out-of-range indices clamp. -/
def pyListInsert (l : List α) (i : Int) (x : α) : List α :=
  let n : Int := l.length
  let j : Int := if i < 0 then max 0 (n + i) else min i n
  l.take j.toNat ++ x :: l.drop j.toNat

/-- Arguments passed to `list.pop` in the code modelled here. -/
inductive PyIx where
  | int (i : Int)
  | str (s : String)
deriving DecidableEq, Repr

/-- Python `list.pop(ix)`: an integer argument pops and returns the element at
that index (negative counts from the end, `IndexError` when out of range); any
non-integer argument - in particular the string that
`deregister_text_processor` passes - raises `TypeError` before the list is
touched. -/
def pyListPop (l : List α) (ix : PyIx) : Except PyErr (α × List α) :=
  match ix with
  | .str _ => .error .typeError
  | .int i =>
    let j : Int := if i < 0 then i + l.length else i
    if j < 0 then .error .indexError
    else
      match l.get? j.toNat with
      | some x => .ok (x, l.take j.toNat ++ l.drop (j.toNat + 1))
      | none => .error .indexError

/-- Embedding of `CommonMark._register_processor` (renderers.py lines
245-250): build the entry and insert it at `index`, or append when `index` is
`None`.  The source performs no duplicate-name check. -/
def _register_processor (regs : Registries) (name : String) (processor : Nat)
    (entrypoint : Hook) (index : Option Int) : Registries :=
  let item : ProcEntry := ⟨name, processor⟩
  match index with
  | some i => regs.put entrypoint (pyListInsert (regs.get entrypoint) i item)
  | none => regs.put entrypoint (regs.get entrypoint ++ [item])

/-- `CommonMark.register_text_processor` (renderers.py lines 259-262). -/
def register_text_processor (regs : Registries) (name : String) (processor : Nat)
    (index : Option Int) : Registries :=
  _register_processor regs name processor .before_parse index

/-- `CommonMark.register_ast_processor` (renderers.py lines 275-291). -/
def register_ast_processor (regs : Registries) (name : String) (processor : Nat)
    (index : Option Int) : Registries :=
  _register_processor regs name processor .after_parse index

/-- Embedding of `CommonMark.deregister_text_processor` (renderers.py lines
264-273): `return self._processors['before_parse'].pop(name)` - `pop` on the
Python list registry with the processor name, a string. -/
def deregister_text_processor (regs : Registries) (name : String) :
    Except PyErr (ProcEntry × Registries) :=
  match pyListPop regs.before_parse (.str name) with
  | .ok (x, l) => .ok (x, { regs with before_parse := l })
  | .error e => .error e

/-- Embedding of `CommonMark.deregister_ast_processor` (renderers.py lines
293-302): `return self._processors['after_parse'].pop(name)`. -/
def deregister_ast_processor (regs : Registries) (name : String) :
    Except PyErr (ProcEntry × Registries) :=
  match pyListPop regs.after_parse (.str name) with
  | .ok (x, l) => .ok (x, { regs with after_parse := l })
  | .error e => .error e

/-! ### The document tree and its walker -/

/-- Node type tags: the closed set from `ast_tools.type_map` (the table
extension kinds are omitted; nothing modelled here touches them). -/
inductive NType where
  | document
  | block_quote
  | list
  | item
  | code_block
  | html_block
  | custom_block
  | paragraph
  | heading
  | thematic_break
  | footnote_definition
  | text
  | softbreak
  | linebreak
  | code
  | html_inline
  | custom_inline
  | emph
  | strong
  | link
  | image
  | footnote_reference
deriving DecidableEq, Repr

/-- A document-tree node: the type tag, the attributes that the modelled code
reads or writes (heading level, literal content as stored by the C library,
source start line), and the ordered children. -/
inductive Node where
  | mk (ntype : NType) (level : Int) (literal : String) (startLine : Nat)
      (children : List Node)

/-- The node's type tag (`cmark_node_get_type`). -/
def Node.ntype : Node → NType
  | .mk t _ _ _ _ => t

/-- The node's stored heading level. -/
def Node.level : Node → Int
  | .mk _ l _ _ _ => l

/-- The node's stored literal content. -/
def Node.literal : Node → String
  | .mk _ _ s _ _ => s

/-- The node's source start line. -/
def Node.startLine : Node → Nat
  | .mk _ _ _ ln _ => ln

/-- The node's ordered children. -/
def Node.children : Node → List Node
  | .mk _ _ _ _ cs => cs

/-- `ast_tools.get_heading_level` via `cmark_node_get_heading_level`: the
heading level, or 0 when the node is not a heading (ast_tools.py lines
376-385). -/
def get_heading_level (n : Node) : Int :=
  if n.ntype = .heading then n.level else 0

/-- `ast_tools.get_start_line` via `cmark_node_get_start_line` (ast_tools.py
lines 251-254). -/
def get_start_line (n : Node) : Nat := n.startLine

/-- Node kinds that carry literal string content in the C library
(`cmark_node_get_literal` returns `NULL` for the others). -/
def hasLiteral : NType → Bool
  | .html_block | .html_inline | .text | .code | .code_block => true
  | _ => false

/-- The C accessor `cmark_node_get_literal` at its interface (the C library is
an external collaborator): the byte-string content for literal-carrying
kinds, `None` otherwise. -/
def node_get_literal (n : Node) : Option PyStrVal :=
  if hasLiteral n.ntype then some (.pybytes n.literal) else none

/-- `ast_tools.from_c_string` (ast_tools.py lines 87-95):
`text.decode('utf-8')`.  A byte string decodes to `str`; a `str` has no
`decode` attribute in Python 3, so passing an already-decoded string (or
`None`) raises `AttributeError`. -/
def from_c_string : PyStrVal → Except PyErr PyStrVal
  | .pybytes s => .ok (.pystr s)
  | .pystr _ => .error .attributeError

/-- `ast_tools.get_literal` (ast_tools.py lines 289-301): fetch the raw
content and decode it when present; `None` is passed through.  The decode
cannot fail here because `node_get_literal` only produces byte strings. -/
def get_literal (n : Node) : Option PyStrVal :=
  match node_get_literal n with
  | none => none
  | some content =>
    match from_c_string content with
    | .ok v => some v
    | .error _ => some content

mutual
/-- Walk events of `ast_tools.walk` over a subtree.  Modelled from the spec
(§4.2 Tree Walker - the underlying cmark iterator is an external
collaborator): a depth-first pre-order traversal yielding `(node, entering)`
pairs, Enter before the node's children, Exit after them.  (The C iterator
omits Exit events for leaf-kind nodes; the processors modelled here only act
on text-node Enters and heading Enters/Exits, on which the two walkers
agree.) -/
def walkEvents : Node → List (Node × Bool)
  | .mk t l s ln cs =>
    (Node.mk t l s ln cs, true) :: (walkEventsList cs ++ [(Node.mk t l s ln cs, false)])

/-- Walk events of a sibling list, in order. -/
def walkEventsList : List Node → List (Node × Bool)
  | [] => []
  | c :: cs => walkEvents c ++ walkEventsList cs
end

/-! ### Heading collection (`get_headings` and `HeadingCollector`) -/

/-- The record `{'level': .., 'text': .., 'line_number': ..}` collected for a
heading by `get_headings`; the text keeps its Python string-vs-bytes tag. -/
structure HInfo where
  level : Int
  text : PyStrVal
  line_number : Nat
deriving DecidableEq, Repr

/-- Inner helper `get_heading_info` of the module-level `get_headings`
(processors.py lines 22-35): walk the heading node and return the record built
at the first text-node Enter, with the text exactly as `get_literal` yields
it; Python `None` when the heading contains no text node (the loop falls
through). -/
def get_heading_info (node : Node) : Option HInfo :=
  let level := get_heading_level node
  let line_no := get_start_line node
  (walkEvents node).findSome? (fun ev =>
    if ev.2 && ev.1.ntype == .text then
      match get_literal ev.1 with
      | some text => some ⟨level, text, line_no⟩
      | none => some ⟨level, .pystr "", line_no⟩
    else none)

/-- Embedding of the module-level `get_headings` (processors.py lines 6-41):
append `get_heading_info` at every heading Exit event. -/
def get_headings (document : Node) : List (Option HInfo) :=
  ((walkEvents document).filter (fun ev => !ev.2 && ev.1.ntype == .heading)).map
    (fun ev => get_heading_info ev.1)

/-- Inner loop of `HeadingCollector.get_headings`'s `get_heading_info`
(processors.py lines 261-274): identical to the module-level helper except
that the value of `get_literal` - already a decoded `str` - is passed through
`ast_tools.from_c_string` once more, which raises `AttributeError`. -/
def hcInfoGo (level : Int) (line_no : Nat) : List (Node × Bool) → Except PyErr (Option HInfo)
  | [] => .ok none
  | ev :: rest =>
    if ev.2 && ev.1.ntype == .text then
      match get_literal ev.1 with
      | some text =>
        match from_c_string text with
        | .ok v => .ok (some ⟨level, v, line_no⟩)
        | .error e => .error e
      | none => .error .attributeError
    else hcInfoGo level line_no rest

/-- `get_heading_info` inside `HeadingCollector.get_headings`. -/
def HeadingCollector.get_heading_info (node : Node) : Except PyErr (Option HInfo) :=
  hcInfoGo (get_heading_level node) (get_start_line node) (walkEvents node)

/-- Embedding of `HeadingCollector.get_headings` (processors.py lines
251-280): like the module-level `get_headings`, but through the collector's
`get_heading_info`, whose extra `from_c_string` raises out of the whole
method. -/
def HeadingCollector.get_headings (document : Node) : Except PyErr (List (Option HInfo)) :=
  ((walkEvents document).filter (fun ev => !ev.2 && ev.1.ntype == .heading)).mapM
    (fun ev => HeadingCollector.get_heading_info ev.1)

/-! ### The heading-level clamp (`MaxHeadingLevel`) -/

/-- The C setter `cmark_node_set_heading_level` behind
`ast_tools.set_heading_level` (ast_tools.py lines 363-373), at its interface
(the C library is an external collaborator).  Modelled from the spec: heading
level ∈ [1,6] whenever the tag is heading, and setters fail (returning 0 and
changing nothing) on an unsupported node or an out-of-range level. -/
def set_heading_level (n : Node) (level : Int) : Node × Int :=
  if n.ntype = .heading ∧ 1 ≤ level ∧ level ≤ 6 then
    (Node.mk n.ntype level n.literal n.startLine n.children, 1)
  else (n, 0)

mutual
/-- Embedding of `MaxHeadingLevel.enforce_max_heading_level` (processors.py
lines 225-242) on one subtree.  The bound check `max_level > 6 or max_level <
0` runs at each heading Enter event, so the `ValueError` only surfaces when
the walk meets a heading; when a heading's level exceeds `max_level` the
setter is invoked (and silently fails for out-of-range targets such as 0). -/
def enforceGo (max_level : Int) : Node → Except PyErr Node
  | .mk t l s ln cs =>
    if t = .heading then
      if max_level > 6 ∨ max_level < 0 then .error .valueError
      else
        let n0 : Node := .mk t l s ln cs
        let n1 := if get_heading_level n0 > max_level then (set_heading_level n0 max_level).1 else n0
        match enforceList max_level cs with
        | .ok cs2 => .ok (.mk n1.ntype n1.level n1.literal n1.startLine cs2)
        | .error e => .error e
    else
      match enforceList max_level cs with
      | .ok cs2 => .ok (.mk t l s ln cs2)
      | .error e => .error e

/-- `enforce_max_heading_level` over a sibling list, in walk order. -/
def enforceList (max_level : Int) : List Node → Except PyErr (List Node)
  | [] => .ok []
  | c :: rest =>
    match enforceGo max_level c with
    | .ok c2 =>
      match enforceList max_level rest with
      | .ok cs2 => .ok (c2 :: cs2)
      | .error e => .error e
    | .error e => .error e
end

/-- `MaxHeadingLevel.process_input` (processors.py lines 216-223): the clamp
run on the root node. -/
def maxHeadingLevelRun (root : Node) (max_level : Int) : Except PyErr Node :=
  enforceGo max_level root

/-! ### The table-of-contents pass (`TOCGenerator.set_heading_attributes`) -/

/-- Word characters, the complement of the regex class `\W` that
`TOCGenerator.slugify` strips (ASCII inputs): letters, digits, underscore. -/
def pyIsWord (c : Char) : Bool := c.isAlphanum || c = '_'

/-- Collapse every whitespace run to a single space:
`re.sub(r'\s+', ' ', text)`.  The flag records whether the previous character
was part of a whitespace run. -/
def collapseWsGo (prevSpace : Bool) : List Char → List Char
  | [] => []
  | c :: rest =>
    if pyIsSpace c then
      if prevSpace then collapseWsGo true rest else ' ' :: collapseWsGo true rest
    else c :: collapseWsGo false rest

/-- `re.sub(r'\s+', ' ', text)`. -/
def collapseWs (l : List Char) : List Char := collapseWsGo false l

/-- Embedding of `TOCGenerator.slugify` (processors.py lines 414-426):
lowercase; replace each of space, hyphen, period, slash by an underscore;
delete remaining non-word characters; turn underscores into spaces; collapse
whitespace runs; strip; replace spaces by hyphens. -/
def slugify (text : String) : String :=
  let l := text.toList.map Char.toLower
  let l := l.map (fun c => if c = ' ' || c = '-' || c = '.' || c = '/' then '_' else c)
  let l := l.filter pyIsWord
  let l := l.map (fun c => if c = '_' then ' ' else c)
  let l := collapseWs l
  let l := pyStripList l
  let l := l.map (fun c => if c = ' ' then '-' else c)
  ⟨l⟩

/-- `ast_tools.make_html_node` with `block=True` (ast_tools.py lines 127-141):
a fresh HTML block node carrying `content` as its literal; fresh nodes have
heading level 0 and no source position. -/
def make_html_node (content : String) : Node := .mk .html_block 0 content 0 []

/-- The heading record `{'level': .., 'text': .., 'line_number': ..}`
appended to `headings_list` by `set_heading_attributes`; here the text is the
decoded string `get_literal` yields for a text node. -/
structure HRec where
  level : Int
  text : String
  line_number : Nat
deriving DecidableEq, Repr

/-- The literals of the text-node Enter events inside `n`, in walk order: the
successive values the inner loop of `set_heading_attributes` assigns to
`text` (for a text node, `get_literal` yields the node's decoded literal). -/
def textEnterLits (n : Node) : List String :=
  ((walkEvents n).filter (fun ev => ev.2 && ev.1.ntype == .text)).map (fun ev => ev.1.literal)

mutual
/-- Embedding of `TOCGenerator.set_heading_attributes` (processors.py lines
312-340) on one subtree, handling heading Exit events bottom-up exactly as
the walk meets them (an inner heading's Exit precedes its ancestors', and a
replacement installed at an inner Exit is visible when an outer heading later
walks its own subtree).  At a heading's Exit: `text` starts as `''`; when the
level does not exceed `max_depth`, the inner walk appends one record per
text-node Enter - no break - leaving `text` as the last such literal; then,
when `inject` is set, the heading node - whatever its level - is replaced by
a raw HTML block containing the anchored heading tag. -/
def shaGo (inject : Bool) (max_depth : Int) : Node → Node × List HRec
  | .mk t l s ln cs =>
    let r := shaList inject max_depth cs
    let node : Node := .mk t l s ln r.1
    if t = .heading then
      let level := get_heading_level node
      let line_number := get_start_line node
      let texts := textEnterLits node
      let collected :=
        if ¬ level > max_depth then texts.map (fun x => (⟨level, x, line_number⟩ : HRec))
        else []
      let text := if ¬ level > max_depth then (texts.getLast?.getD "") else ""
      if inject then
        let _id := toString line_number ++ "-" ++ slugify text
        let heading := "<h" ++ toString level ++ " id=\"" ++ _id ++ "\">" ++ text ++
          "</h" ++ toString level ++ ">"
        (make_html_node heading, r.2 ++ collected)
      else (node, r.2 ++ collected)
    else (node, r.2)

/-- `set_heading_attributes` over a sibling list, in walk order. -/
def shaList (inject : Bool) (max_depth : Int) : List Node → List Node × List HRec
  | [] => ([], [])
  | c :: rest =>
    let a := shaGo inject max_depth c
    let b := shaList inject max_depth rest
    (a.1 :: b.1, a.2 ++ b.2)
end

/-- `TOCGenerator.set_heading_attributes` on the root node.  (The pass runs on
the document root in `process_input`; replacing the root node itself would
fail inside `replace_node`, so the theorems below quantify over
document-rooted trees.) -/
def set_heading_attributes (inject : Bool) (max_depth : Int) (root : Node) :
    Node × List HRec :=
  shaGo inject max_depth root

/-- Heading Exit events of the walk over `t`, as nodes, in walk order. -/
def headingExits (t : Node) : List Node :=
  ((walkEvents t).filter (fun ev => !ev.2 && ev.1.ntype == .heading)).map (fun ev => ev.1)

/-- One heading's contribution to the collect pass: when its level does not
exceed `max_depth`, one record per text-node Enter of its subtree. -/
def collect1 (max_depth : Int) (h : Node) : List HRec :=
  if ¬ get_heading_level h > max_depth then
    (textEnterLits h).map (fun s => (⟨get_heading_level h, s, get_start_line h⟩ : HRec))
  else []

/-- Specification-side description of the collect pass: every heading (in
Exit order) contributes `collect1`. -/
def collectSpec (max_depth : Int) (t : Node) : List HRec :=
  (headingExits t).flatMap (collect1 max_depth)

/-- Does any node of the subtree have the heading tag? -/
def hasHeading (t : Node) : Bool :=
  (walkEvents t).any (fun ev => ev.1.ntype == .heading)

/-! ### Nesting the outline (`TOCGenerator.nest_toc_items`)

The Python loop mutates shared dicts: an item sits simultaneously in
`processed` (or in some `children` list) and in `parent_list` / `last_item`,
and appending to its `children` is visible everywhere.  The embedding makes
that explicit: items are referred to by their position in the input list, and
the growing `children` lists are represented by a child-to-parent table
(entry `(k, j)` records that item `k` was appended to item `j`'s
`children`). -/

/-- A node of the nested outline: a heading record together with the
`children` forest. -/
inductive TTree where
  | node (level : Int) (text : String) (line_number : Nat) (children : List TTree)

mutual
/-- Structural equality on outlines, as Python `==` compares the heading
dicts. -/
def ttreeBeq : TTree → TTree → Bool
  | .node l1 t1 n1 cs1, .node l2 t2 n2 cs2 =>
    l1 == l2 && t1 == t2 && n1 == n2 && ttreeListBeq cs1 cs2

/-- Structural equality on outline forests. -/
def ttreeListBeq : List TTree → List TTree → Bool
  | [], [] => true
  | a :: as_, b :: bs => ttreeBeq a b && ttreeListBeq as_ bs
  | _, _ => false
end

/-- The `level` of the item at position `i` of the input list. -/
def levelAt (items : List HRec) (i : Nat) : Int :=
  match items.get? i with
  | some r => r.level
  | none => 0

/-- An outline node annotated with the identity of the underlying Python dict
(the dict's position in the input list).  The loop shares the dicts between
`processed`, the `children` lists and `parent_list`; an in-place mutation of
one dict is modelled below as the update of the unique node carrying its
identity. -/
inductive ITree where
  | node (idx : Nat) (level : Int) (text : String) (line_number : Nat)
      (children : List ITree)

mutual
/-- Forget the identity annotations. -/
def stripT : ITree → TTree
  | .node _ lv tx ln cs => .node lv tx ln (stripF cs)

/-- Forget the identity annotations of a forest. -/
def stripF : List ITree → List TTree
  | [] => []
  | t :: ts => stripT t :: stripF ts
end

mutual
/-- Find the node carrying identity `j` in a subtree. -/
def findT (j : Nat) : ITree → Option ITree
  | .node i lv tx ln cs =>
    if i = j then some (.node i lv tx ln cs) else findF j cs

/-- Find the node carrying identity `j` in a forest. -/
def findF (j : Nat) : List ITree → Option ITree
  | [] => none
  | t :: ts =>
    match findT j t with
    | some r => some r
    | none => findF j ts
end

/-- `parent['level']`: the level field of the dict with identity `j`. -/
def levelIdx (F : List ITree) (j : Nat) : Int :=
  match findF j F with
  | some (.node _ lv _ _ _) => lv
  | none => 0

/-- Python `==` between the dicts with identities `p` and `q`: dicts compare
by value - level, text, line number and the `children` lists, recursively. -/
def itemEqIdx (F : List ITree) (p q : Nat) : Bool :=
  match findF p F, findF q F with
  | some a, some b => ttreeBeq (stripT a) (stripT b)
  | none, none => true
  | _, _ => false

mutual
/-- `d['children'].append(x)` for the dict with identity `j`, inside a
subtree. -/
def attachAtT (j : Nat) (x : ITree) : ITree → ITree
  | .node i lv tx ln cs =>
    if i = j then .node i lv tx ln (cs ++ [x])
    else .node i lv tx ln (attachAtF j x cs)

/-- `d['children'].append(x)` for the dict with identity `j`, inside a
forest. -/
def attachAtF (j : Nat) (x : ITree) : List ITree → List ITree
  | [] => []
  | t :: ts => attachAtT j x t :: attachAtF j x ts
end

/-- The loop `for parent in reversed(parent_list): if level <=
parent['level']: parent_list.pop(parent_list.index(parent))` of
`nest_toc_items`.  CPython's reversed iterator counts an index down from the
initial length, re-reads the current (possibly shrunken) list at each step
and stops when the index falls outside it; `list.index` finds the first
entry equal (Python `==`) to the yielded parent, and `list.pop` removes by
position.  `i` is the iterator index plus one, so `0` means exhausted. -/
def popParentsGo (F : List ITree) (level : Int) : List Nat → Nat → List Nat
  | ps, 0 => ps
  | ps, i + 1 =>
    if h : i < ps.length then
      popParentsGo F level
        (if level ≤ levelIdx F (ps.get ⟨i, h⟩) then
          match ps.findIdx? (fun q => itemEqIdx F q (ps.get ⟨i, h⟩)) with
          | some j => ps.take j ++ ps.drop (j + 1)
          | none => ps
        else ps) i
    else ps

/-- The reversed-iteration pop loop, started at the end of `parent_list`. -/
def popParents (F : List ITree) (level : Int) (ps : List Nat) : List Nat :=
  popParentsGo F level ps ps.length

/-- A freshly processed item as a dict with empty `children`
(`item['children'] = []`), carrying its identity. -/
def leafI (items : List HRec) (i : Nat) : ITree :=
  match items.get? i with
  | some r => .node i r.level r.text r.line_number []
  | none => .node i 0 "" 0 []

/-- The loop state of `nest_toc_items`: `processed` holds the root dicts with
the shared-dict `children` structure resolved in place (so a later append to
an open dict is performed by `attachAtF` on its identity); the other three
fields transcribe the loop variables, `parent_list` and `last_item` holding
dict identities. -/
structure NestState where
  processed : List ITree
  parent_list : List Nat
  last_item : Nat
  last_level : Int

/-- One iteration of the `for item in toc_list` loop of `nest_toc_items`
(processors.py lines 352-378), processing the item at position `i`: a level
drop pops open parents (reading the current dicts) and resets `last_level`;
then the item is appended to the last open parent's children, or to the root
list, or - on a level increase - to the previous item's children, pushing
that item as an open parent. -/
def nestStep (items : List HRec) (st : NestState) (i : Nat) : NestState :=
  let level := levelAt items i
  let st :=
    if level < st.last_level then
      { st with
        parent_list :=
          if st.parent_list ≠ [] then popParents st.processed level st.parent_list
          else st.parent_list,
        last_level := level }
    else st
  let st :=
    if level = st.last_level then
      match st.parent_list.getLast? with
      | some p => { st with processed := attachAtF p (leafI items i) st.processed }
      | none => { st with processed := st.processed ++ [leafI items i] }
    else
      { st with
        processed := attachAtF st.last_item (leafI items i) st.processed,
        parent_list := st.parent_list ++ [st.last_item],
        last_level := level }
  { st with last_item := i }

/-- Embedding of `TOCGenerator.nest_toc_items` (processors.py lines 342-380):
pop the head as the first root, run the loop over the remaining items, and
return the `processed` roots. -/
def nest_toc_items (toc_list : List HRec) : List TTree :=
  match toc_list with
  | [] => []
  | _ :: rest =>
    let st0 : NestState := ⟨[leafI toc_list 0], [], 0, levelAt toc_list 0⟩
    let stN := (List.range rest.length).foldl (fun st k => nestStep toc_list st (k + 1)) st0
    stripF stN.processed

/-- A heading record as a childless outline node. -/
def TTree.leaf (r : HRec) : TTree := .node r.level r.text r.line_number []

mutual
/-- Attach one record to the forest built so far, at the place the spec
prescribes (§4.6): under the nearest preceding heading of strictly lower
level - found by descending the rightmost spine while the last root's level
is strictly lower than the record's - or else as a new root/sibling. -/
def specAttach (r : HRec) : List TTree → List TTree
  | [] => [TTree.leaf r]
  | t :: ts =>
    match ts with
    | _ :: _ => t :: specAttach r ts
    | [] => specAttachLast r t

/-- Attach a record at (or next to) the last root of the forest. -/
def specAttachLast (r : HRec) : TTree → List TTree
  | .node l x ln cs =>
    if l < r.level then [.node l x ln (specAttach r cs)]
    else [.node l x ln cs, TTree.leaf r]
end

/-- The specification forest: records attached in document order. -/
def specNest (rs : List HRec) : List TTree :=
  rs.foldl (fun ts r => specAttach r ts) []

/-! ### Auxiliary definitions used by the theorems -/

/-- `hasHeading` over a sibling list. -/
def hasHeadingList (l : List Node) : Bool :=
  (walkEventsList l).any (fun ev => ev.1.ntype == .heading)

/-- `headingExits` over a sibling list. -/
def headingExitsList (l : List Node) : List Node :=
  ((walkEventsList l).filter (fun ev => !ev.2 && ev.1.ntype == .heading)).map (fun ev => ev.1)

/-- `collectSpec` over a sibling list. -/
def collectSpecList (max_depth : Int) (l : List Node) : List HRec :=
  (headingExitsList l).flatMap (collect1 max_depth)

/-- Number of entries registered under `n`. -/
def countName (l : List ProcEntry) (n : String) : Nat :=
  (l.filter (fun e => e.name = n)).length

mutual
/-- The pure tree transformation computed by the clamp for the in-range bound
4: headings above level 4 drop to 4, everything else is untouched. -/
def clamp4 : Node → Node
  | .mk t l s ln cs => .mk t (if t = NType.heading ∧ l > 4 then 4 else l) s ln (clamp4List cs)

/-- `clamp4` over a sibling list. -/
def clamp4List : List Node → List Node
  | [] => []
  | c :: cs => clamp4 c :: clamp4List cs
end

/-- Example document: one level-3 heading (deeper than a `max_depth` of 2)
containing one text node. -/
def exDeep : Node :=
  .mk .document 0 "" 0 [.mk .heading 3 "" 1 [.mk .text 0 "A" 1 []]]

/-- Example document: one level-1 heading containing two text nodes. -/
def exTwoTexts : Node :=
  .mk .document 0 "" 0 [.mk .heading 1 "" 1 [.mk .text 0 "a" 1 [], .mk .text 0 "b" 1 []]]

/-- Example document: one level-6 heading with a text node. -/
def exH6 : Node :=
  .mk .document 0 "" 0 [.mk .heading 6 "" 1 [.mk .text 0 "h" 1 []]]

/-- `exH6` after clamping to level 4. -/
def exH6Clamped : Node :=
  .mk .document 0 "" 0 [.mk .heading 4 "" 1 [.mk .text 0 "h" 1 []]]

/-- Example document with no heading at all. -/
def exNoHeading : Node :=
  .mk .document 0 "" 0 [.mk .paragraph 0 "" 1 [.mk .text 0 "p" 1 []]]

/-- Example document: one level-1 heading containing one text node. -/
def exH1 : Node :=
  .mk .document 0 "" 0 [.mk .heading 1 "" 1 [.mk .text 0 "this is a H1 heading" 1 []]]

/-- The heading sequence `[H1 "A", H2 "B", H2 "C", H1 "D"]` of the spec's
TOC nesting example, with distinct source lines. -/
def exSeq : List HRec := [⟨1, "A", 1⟩, ⟨2, "B", 2⟩, ⟨2, "C", 3⟩, ⟨1, "D", 4⟩]

/-- Registries after registering the name "p" twice at the text hook. -/
def regsDup : Registries :=
  register_text_processor (register_text_processor Registries.init "p" 1 none) "p" 2 none

mutual
/-- The identities occurring in a subtree, in pre-order. -/
def idxsT : ITree → List Nat
  | .node i _ _ _ cs => i :: idxsF cs

/-- The identities occurring in a forest, in pre-order. -/
def idxsF : List ITree → List Nat
  | [] => []
  | t :: ts => idxsT t ++ idxsF ts
end

/-- The rightmost spine of a forest: the last root, its last child, and so on
down to a childless node; each spine entry records the node's identity and
its level.  The loop keeps its open dicts - `parent_list` and `last_item` -
exactly along this spine. -/
inductive RSpine : List ITree → List (Nat × Int) → Prop where
  | nil : RSpine [] []
  | cons : ∀ (F0 : List ITree) (i : Nat) (lv : Int) (tx : String) (ln : Nat)
      (cs : List ITree) (sp : List (Nat × Int)),
      RSpine cs sp → RSpine (F0 ++ [.node i lv tx ln cs]) ((i, lv) :: sp)

/-- Loop invariant of `nest_toc_items` after the items at positions `0..k`
have been processed: the open dicts `parent_list ++ [last_item]` sit along
the rightmost spine of `processed` with strictly increasing levels ending at
`last_level`, the forest so far - identities forgotten - is the
specification nest of the prefix, and identities are distinct and bounded by
`k`. -/
def INV (items : List HRec) (k : Nat) (st : NestState) : Prop :=
  ∃ sp : List (Nat × Int),
    sp.map Prod.fst = st.parent_list ++ [st.last_item] ∧
    RSpine st.processed sp ∧
    (sp.map Prod.snd).Pairwise (· < ·) ∧
    st.last_item = k ∧
    st.last_level = levelAt items k ∧
    sp.getLast?.map Prod.snd = some st.last_level ∧
    stripF st.processed = specNest (items.take (k + 1)) ∧
    (idxsF st.processed).Nodup ∧
    (∀ j ∈ idxsF st.processed, j ≤ k)

/-! ## Theorems settling the claims -/

/-- Claim C4 (code_bug evidence): `deregister_text_processor` and
`deregister_ast_processor` never remove anything - they call `list.pop` on
the registry list with the processor *name*, a string, which raises
`TypeError` for every registry state, including one where the name was just
registered. -/
theorem claim_C4 : ∀ (regs : Registries) (name : String) (proc : Nat),
    deregister_text_processor (register_text_processor regs name proc none) name =
      .error .typeError ∧
    deregister_ast_processor (register_ast_processor regs name proc none) name =
      .error .typeError :=
  fun _ _ _ => ⟨rfl, rfl⟩

/-- Claim C6 (counterexample): registering the name "p" twice at the same
hook raises nothing and leaves two entries named "p" in the registry, against
the claim that duplicates are rejected with `DuplicateName`. -/
theorem claim_C6_cex : countName regsDup.before_parse "p" = 2 := by decide

/-- Claim C6 (amended): registering under any name - duplicate or not -
always succeeds and appends the new entry at the end of the hook's registry;
in particular the number of entries carrying that name grows by one and
nothing is overwritten. -/
theorem claim_C6 : ∀ (regs : Registries) (hk : Hook) (n : String) (p : Nat),
    (_register_processor regs n p hk none).get hk = regs.get hk ++ [⟨n, p⟩] ∧
    countName ((_register_processor regs n p hk none).get hk) n =
      countName (regs.get hk) n + 1 := by
  intro regs hk n p
  have hget : (_register_processor regs n p hk none).get hk = regs.get hk ++ [⟨n, p⟩] := by
    cases hk <;> simp [_register_processor, Registries.get, Registries.put]
  refine ⟨hget, ?_⟩
  simp [hget, countName, List.filter_append]

/-- Claim C3 (counterexample): on the spec's round-trip input the default
loader keeps the space after the colon - the extracted data is
`{"foo": " bar"}`, not the claimed `{"foo": "bar"}` (the output text is
`"body\n"` as claimed). -/
theorem claim_C3_cex :
    extractMetadataDefault "---\nfoo: bar\n---\nbody\n" = .ok ("body\n", [("foo", " bar")]) ∧
    extractMetadataDefault "---\nfoo: bar\n---\nbody\n" ≠ .ok ("body\n", [("foo", "bar")]) := by
  constructor
  · rfl
  · intro h
    rw [show extractMetadataDefault "---\nfoo: bar\n---\nbody\n" =
      .ok ("body\n", [("foo", " bar")]) from rfl] at h
    simp at h

/-- Claim C3 (amended): the front-matter block is stripped and `"body\n"`
becomes the output text, and the default loader - which strips each whole
line but not the pieces around the first `':'` - extracts
`{"foo": " bar"}`, the value keeping its leading space. -/
theorem claim_C3 :
    extractMetadataDefault "---\nfoo: bar\n---\nbody\n" = .ok ("body\n", [("foo", " bar")]) := rfl

/-- Claim C7 (counterexample): on an input with no front-matter block the
processor does not pass the text through - the default loader is invoked on
`None` and raises `AttributeError`. -/
theorem claim_C7_cex :
    extractMetadataDefault "hello\n" = .error .attributeError := rfl

/-- Claim C7 (amended): whenever the front-matter pattern finds no match, the
processor with the default loader raises `AttributeError` (the loader is
called on `None`); no output text or data is produced. -/
theorem claim_C7 : ∀ (text : String), reSearch text.toList patern = none →
    extractMetadataDefault text = .error .attributeError := by
  intro text h
  have h2 : reSearch text.data patern = none := h
  simp [extractMetadataDefault, h2, key_value_to_dict]

/-- Claim C7 witness: the hypothesis of `claim_C7` holds at the concrete
input `"hello\n"`, where the processor indeed raises. -/
theorem claim_C7_witness :
    reSearch "hello\n".toList patern = none ∧
    extractMetadataDefault "hello\n" = .error .attributeError :=
  ⟨rfl, claim_C7 "hello\n" rfl⟩

/-- Claim C5 (code_bug evidence): the bound check `max_level > 6 or max_level
< 0` lets `max_level = 0` through - on a document with a level-6 heading no
`ValueError` is raised, `set_heading_level(node, 0)` fails silently and the
tree is returned unchanged, against the documented range [1,6]; moreover
`max_level = 7` on a heading-free document raises nothing either, because
the check only runs at heading Enter events. -/
theorem claim_C5 :
    maxHeadingLevelRun exH6 0 = .ok exH6 ∧
    maxHeadingLevelRun exNoHeading 7 = .ok exNoHeading := ⟨rfl, rfl⟩

mutual
/-- With the in-range bound 4 the clamp never raises and computes `clamp4`. -/
theorem enforce4_eq : ∀ t : Node, enforceGo 4 t = .ok (clamp4 t)
  | .mk ty l s ln cs => by
    have hcs := enforceList4_eq cs
    by_cases h : ty = NType.heading
    · subst h
      by_cases h4 : l > 4 <;>
        simp [enforceGo, clamp4, hcs, get_heading_level, set_heading_level, h4,
          Node.ntype, Node.level, Node.literal, Node.startLine, Node.children]
    · simp [enforceGo, h, clamp4, hcs]

/-- `enforceList` with bound 4 over a sibling list. -/
theorem enforceList4_eq : ∀ l : List Node, enforceList 4 l = .ok (clamp4List l)
  | [] => rfl
  | c :: cs => by
    have hc := enforce4_eq c
    have hcs := enforceList4_eq cs
    simp [enforceList, hc, hcs, clamp4List]
end

mutual
/-- `clamp4` is idempotent on nodes. -/
theorem clamp4_idem : ∀ t : Node, clamp4 (clamp4 t) = clamp4 t
  | .mk ty l s ln cs => by
    have hcs := clamp4List_idem cs
    by_cases h : ty = NType.heading ∧ l > 4 <;>
      simp [clamp4, h, hcs]

/-- `clamp4List` is idempotent on sibling lists. -/
theorem clamp4List_idem : ∀ l : List Node, clamp4List (clamp4List l) = clamp4List l
  | [] => rfl
  | c :: cs => by
    have hc := clamp4_idem c
    have hcs := clamp4List_idem cs
    simp [clamp4List, hc, hcs]
end

/-- Claim C9 (confirmed): the level clamp with `max_level = 4` is idempotent -
running it twice equals running it once on every document tree - and a
level-6 heading comes out as level 4. -/
theorem claim_C9 :
    (∀ t : Node, (maxHeadingLevelRun t 4).bind (fun u => maxHeadingLevelRun u 4) =
      maxHeadingLevelRun t 4) ∧
    maxHeadingLevelRun exH6 4 = .ok exH6Clamped := by
  constructor
  · intro t
    simp [maxHeadingLevelRun, enforce4_eq t, enforce4_eq (clamp4 t), clamp4_idem t,
      Except.bind]
  · rfl

/-- Claim C10 (code_bug evidence): on a document with one level-1 heading the
module-level `get_headings` returns the record list, while
`HeadingCollector.get_headings` - the documented same computation - raises
`AttributeError`, because it feeds the already-decoded text to
`from_c_string` again. -/
theorem claim_C10 :
    get_headings exH1 = [some ⟨1, .pystr "this is a H1 heading", 1⟩] ∧
    HeadingCollector.get_headings exH1 = .error .attributeError := ⟨rfl, rfl⟩

/-- Unfolding of `hasHeading` at a node. -/
theorem hasHeading_mk (ty : NType) (l : Int) (s : String) (ln : Nat) (cs : List Node) :
    hasHeading (.mk ty l s ln cs) = ((ty == NType.heading) || hasHeadingList cs) := by
  cases h : (ty == NType.heading) <;>
    simp [hasHeading, hasHeadingList, walkEvents, List.any_append, Node.ntype, h]

/-- Unfolding of `hasHeadingList` at a cons cell. -/
theorem hasHeadingList_cons (c : Node) (cs : List Node) :
    hasHeadingList (c :: cs) = (hasHeading c || hasHeadingList cs) := by
  simp [hasHeadingList, hasHeading, walkEventsList, List.any_append]

mutual
/-- With `inject` set, the rewrite pass leaves no heading node behind:
every heading - whatever its level - is replaced by an HTML block. -/
theorem shaGo_true_noHeading (d : Int) : ∀ t : Node, hasHeading (shaGo true d t).1 = false
  | .mk ty l s ln cs => by
    have hcs := shaList_true_noHeading d cs
    by_cases h : ty = NType.heading
    · subst h
      simp [shaGo, make_html_node, hasHeading_mk, hasHeadingList, walkEventsList]
    · simp [shaGo, h, hasHeading_mk, hcs]

/-- Sibling-list version of `shaGo_true_noHeading`. -/
theorem shaList_true_noHeading (d : Int) : ∀ l : List Node,
    hasHeadingList (shaList true d l).1 = false
  | [] => by simp [shaList, hasHeadingList, walkEventsList]
  | c :: cs => by
    have hc := shaGo_true_noHeading d c
    have hcs := shaList_true_noHeading d cs
    simp [shaList, hasHeadingList_cons, hc, hcs]
end

mutual
/-- Frame property of the rewrite pass: a heading-free subtree comes back
unchanged, whatever `inject` and `max_depth` are. -/
theorem shaGo_frame (inj : Bool) (d : Int) : ∀ t : Node,
    hasHeading t = false → (shaGo inj d t).1 = t
  | .mk ty l s ln cs => by
    intro hfree
    rw [hasHeading_mk] at hfree
    have h1 : ¬ ty = NType.heading := by
      intro h; subst h; simp at hfree
    have h2 : hasHeadingList cs = false := by
      rcases Bool.or_eq_false_iff.mp hfree with ⟨_, h2⟩; exact h2
    simp [shaGo, h1, shaList_frame inj d cs h2]

/-- Sibling-list version of `shaGo_frame`. -/
theorem shaList_frame (inj : Bool) (d : Int) : ∀ l : List Node,
    hasHeadingList l = false → (shaList inj d l).1 = l
  | [] => fun _ => rfl
  | c :: cs => by
    intro hfree
    rw [hasHeadingList_cons] at hfree
    rcases Bool.or_eq_false_iff.mp hfree with ⟨h1, h2⟩
    simp [shaList, shaGo_frame inj d c h1, shaList_frame inj d cs h2]
end

/-- Claim C1 (counterexample): with `max_depth = 2` and `inject` set, the
level-3 heading of `exDeep` - which the claim says is beyond `max_depth` and
hence left untouched - is replaced all the same, so the tree changes. -/
theorem claim_C1_cex : (set_heading_attributes true 2 exDeep).1 ≠ exDeep := by
  intro h
  have h2 : ((set_heading_attributes true 2 exDeep).1).children.map Node.ntype =
      exDeep.children.map Node.ntype := by rw [h]
  have h3 : ((set_heading_attributes true 2 exDeep).1).children.map Node.ntype =
      [NType.html_block] := rfl
  have h4 : exDeep.children.map Node.ntype = [NType.heading] := rfl
  rw [h3, h4] at h2
  exact absurd h2 (by decide)

/-- Claim C1 (amended): with `inject` set the pass replaces every heading
node, the ones beyond `max_depth` included (their anchor text is empty), so
the output tree is heading-free; nodes outside heading subtrees are not
modified - in particular a heading-free document passes through unchanged. -/
theorem claim_C1 : ∀ (d : Int) (t : Node), t.ntype = NType.document →
    hasHeading (set_heading_attributes true d t).1 = false ∧
    (hasHeading t = false → (set_heading_attributes true d t).1 = t) :=
  fun d t _ => ⟨shaGo_true_noHeading d t, shaGo_frame true d t⟩

/-- Claim C1 witness: the amended claim applied to the concrete heading-free
document `exNoHeading` with `max_depth = 2`. -/
theorem claim_C1_witness :
    exNoHeading.ntype = NType.document ∧
    (hasHeading (set_heading_attributes true 2 exNoHeading).1 = false ∧
      (hasHeading exNoHeading = false → (set_heading_attributes true 2 exNoHeading).1 = exNoHeading)) :=
  ⟨rfl, claim_C1 2 exNoHeading rfl⟩

mutual
/-- Without `inject` the pass does not modify the tree. -/
theorem shaGo_false_fst (d : Int) : ∀ t : Node, (shaGo false d t).1 = t
  | .mk ty l s ln cs => by
    have hcs := shaList_false_fst d cs
    by_cases h : ty = NType.heading <;> simp [shaGo, h, hcs]

/-- Sibling-list version of `shaGo_false_fst`. -/
theorem shaList_false_fst (d : Int) : ∀ l : List Node, (shaList false d l).1 = l
  | [] => rfl
  | c :: cs => by simp [shaList, shaGo_false_fst d c, shaList_false_fst d cs]
end

/-- Unfolding of `headingExits` at a node: the children's heading Exits come
first, then the node's own Exit when it is a heading. -/
theorem headingExits_mk (ty : NType) (l : Int) (s : String) (ln : Nat) (cs : List Node) :
    headingExits (.mk ty l s ln cs) =
      headingExitsList cs ++
        (if ty = NType.heading then [Node.mk ty l s ln cs] else []) := by
  by_cases h : ty = NType.heading <;>
    simp [headingExits, headingExitsList, walkEvents, List.filter_append, Node.ntype, h]

/-- Unfolding of `headingExitsList` at a cons cell. -/
theorem headingExitsList_cons (c : Node) (cs : List Node) :
    headingExitsList (c :: cs) = headingExits c ++ headingExitsList cs := by
  simp [headingExitsList, headingExits, walkEventsList, List.filter_append]

mutual
/-- The records returned by the pass (with `inject` unset, as collection does
not depend on it for trees without nested headings) are exactly the
specification-side `collectSpec`: per qualifying heading, one record per
text-node Enter of its subtree. -/
theorem shaGo_false_snd (d : Int) : ∀ t : Node, (shaGo false d t).2 = collectSpec d t
  | .mk ty l s ln cs => by
    have hcs := shaList_false_snd d cs
    have hfst := shaList_false_fst d cs
    by_cases h : ty = NType.heading
    · subst h
      simp [shaGo, hfst, hcs, collectSpec, headingExits_mk, List.flatMap_append,
        collect1, collectSpecList, get_heading_level, Node.ntype]
    · simp [shaGo, h, hcs, collectSpec, headingExits_mk, List.flatMap_append,
        collectSpecList]

/-- Sibling-list version of `shaGo_false_snd`. -/
theorem shaList_false_snd (d : Int) : ∀ l : List Node, (shaList false d l).2 = collectSpecList d l
  | [] => rfl
  | c :: cs => by
    simp [shaList, shaGo_false_snd d c, shaList_false_snd d cs, collectSpecList,
      headingExitsList_cons, List.flatMap_append, collectSpec]
end

/-- Claim C2 (counterexample): the single qualifying heading of `exTwoTexts`
contains two text nodes and contributes two records - not the claimed exactly
one with the first text - because the inner collection loop has no break. -/
theorem claim_C2_cex :
    (set_heading_attributes false 6 exTwoTexts).2 =
      [(⟨1, "a", 1⟩ : HRec), (⟨1, "b", 1⟩ : HRec)] ∧
    ((set_heading_attributes false 6 exTwoTexts).2).length ≠ 1 := by
  exact ⟨rfl, by decide⟩

/-- Claim C2 (amended): the collect pass appends, for every heading whose
level does not exceed `max_depth`, one record per text-node Enter of its
subtree in walk order (so a heading with several text nodes contributes
several records, and the text used for the injected anchor is the last - not
the first - text literal). -/
theorem claim_C2 : ∀ (d : Int) (t : Node),
    (set_heading_attributes false d t).2 = collectSpec d t :=
  fun d t => shaGo_false_snd d t

/-! ### Structural lemmas for the nesting proof -/

theorem stripF_append (a b : List ITree) : stripF (a ++ b) = stripF a ++ stripF b := by
  induction a with
  | nil => rfl
  | cons t ts ih => simp [stripF, ih]

theorem idxsF_append (a b : List ITree) : idxsF (a ++ b) = idxsF a ++ idxsF b := by
  induction a with
  | nil => rfl
  | cons t ts ih => simp [idxsF, ih]

theorem attachAtF_append (j : Nat) (x : ITree) (a b : List ITree) :
    attachAtF j x (a ++ b) = attachAtF j x a ++ attachAtF j x b := by
  induction a with
  | nil => rfl
  | cons t ts ih => simp [attachAtF, ih]

mutual
theorem findT_eq_none (j : Nat) : ∀ t : ITree, j ∉ idxsT t → findT j t = none
  | .node i lv tx ln cs => fun h => by
    have hne : ¬ i = j := by
      intro e; subst e; exact h (by simp [idxsT])
    have h2 : j ∉ idxsF cs := fun hm => h (by simp [idxsT, hm])
    simp [findT, hne, findF_eq_none j cs h2]

theorem findF_eq_none (j : Nat) : ∀ F : List ITree, j ∉ idxsF F → findF j F = none
  | [], _ => rfl
  | t :: ts, h => by
    have h1 : j ∉ idxsT t := fun hm => h (by simp [idxsF, hm])
    have h2 : j ∉ idxsF ts := fun hm => h (by simp [idxsF, hm])
    simp [findF, findT_eq_none j t h1, findF_eq_none j ts h2]
end

mutual
theorem attachAtT_frame (j : Nat) (x : ITree) : ∀ t : ITree, j ∉ idxsT t → attachAtT j x t = t
  | .node i lv tx ln cs => fun h => by
    have hne : ¬ i = j := by
      intro e; subst e; exact h (by simp [idxsT])
    simp [attachAtT, hne, attachAtF_frame j x cs (fun hm => h (by simp [idxsT, hm]))]

theorem attachAtF_frame (j : Nat) (x : ITree) : ∀ F : List ITree, j ∉ idxsF F → attachAtF j x F = F
  | [], _ => rfl
  | t :: ts, h => by
    have h1 : j ∉ idxsT t := fun hm => h (by simp [idxsF, hm])
    have h2 : j ∉ idxsF ts := fun hm => h (by simp [idxsF, hm])
    simp [attachAtF, attachAtT_frame j x t h1, attachAtF_frame j x ts h2]
end

mutual
theorem ttreeBeq_refl : ∀ t : TTree, ttreeBeq t t = true
  | .node lv tx ln cs => by simp [ttreeBeq, ttreeListBeq_refl cs]

theorem ttreeListBeq_refl : ∀ l : List TTree, ttreeListBeq l l = true
  | [] => rfl
  | t :: ts => by simp [ttreeListBeq, ttreeBeq_refl t, ttreeListBeq_refl ts]
end

theorem ttreeBeq_level {l1 l2 : Int} {t1 t2 : String} {n1 n2 : Nat}
    {c1 c2 : List TTree} (h : ttreeBeq (.node l1 t1 n1 c1) (.node l2 t2 n2 c2) = true) :
    l1 = l2 := by
  simp [ttreeBeq, Bool.and_eq_true] at h
  exact h.1.1.1

theorem specAttach_append (r : HRec) (ys : List TTree) (y : TTree) :
    specAttach r (ys ++ [y]) = ys ++ specAttachLast r y := by
  induction ys with
  | nil => simp [specAttach]
  | cons t ts ih =>
    cases ts with
    | nil => simp [specAttach]
    | cons a as => simpa [specAttach] using ih

theorem findF_append (j : Nat) (a b : List ITree) :
    findF j (a ++ b) =
      match findF j a with
      | some r => some r
      | none => findF j b := by
  induction a with
  | nil => simp [findF]
  | cons t ts ih =>
    cases h : findT j t <;> simp [findF, h, ih]

/-- Every spine identity occurs in the forest. -/
theorem RSpine_idxs {F : List ITree} {sp : List (Nat × Int)} (hs : RSpine F sp) :
    ∀ p ∈ sp.map Prod.fst, p ∈ idxsF F := by
  induction hs with
  | nil => intro p hp; simp at hp
  | cons F0 i lv tx ln cs sp hcs ih =>
    intro p hp
    simp [idxsF_append, idxsT, idxsF] at hp ⊢
    rcases hp with hp | hp
    · subst hp; simp
    · have := ih p (by simpa using hp)
      simp [this]

/-- In a duplicate-free forest, each spine entry is found at its node, with
the spine's level. -/
theorem RSpine_find {F : List ITree} {sp : List (Nat × Int)} (hs : RSpine F sp)
    (hd : (idxsF F).Nodup) :
    ∀ pr ∈ sp, ∃ tx ln cs, findF pr.1 F = some (.node pr.1 pr.2 tx ln cs) := by
  induction hs with
  | nil => intro pr hpr; simp at hpr
  | cons F0 i lv tx ln cs sp hcs ih =>
    intro pr hpr
    rw [idxsF_append] at hd
    rcases List.nodup_append.mp hd with ⟨hd0, hd1, hdisj⟩
    have hdT : (idxsT (ITree.node i lv tx ln cs)).Nodup := by simpa [idxsF] using hd1
    rw [idxsT] at hdT
    rcases List.nodup_cons.mp hdT with ⟨hi_not, hdcs⟩
    rcases List.mem_cons.mp hpr with hpr | hpr
    · subst hpr
      refine ⟨tx, ln, cs, ?_⟩
      have h0 : findF i F0 = none := by
        apply findF_eq_none
        intro hmem
        exact hdisj hmem (by simp [idxsF, idxsT])
      rw [findF_append, h0]
      simp [findF, findT]
    · have hpcs : pr.1 ∈ idxsF cs := by
        have := RSpine_idxs hcs pr.1 (by simp; exact ⟨pr.2, hpr⟩)
        exact this
      have hne : ¬ pr.1 = i := by
        intro e; subst e; exact hi_not hpcs
      have h0 : findF pr.1 F0 = none := by
        apply findF_eq_none
        intro hmem
        exact hdisj hmem (by simp [idxsF, idxsT, hpcs])
      rcases ih hdcs pr hpr with ⟨tx2, ln2, cs2, hf⟩
      refine ⟨tx2, ln2, cs2, ?_⟩
      rw [findF_append, h0]
      simp only [findF, findT]
      rw [if_neg (fun e => hne e.symm)]
      simp [hf, findF]

/-- On the spine, `parent['level']` reads the spine entry's level. -/
theorem RSpine_levelIdx {F : List ITree} {sp : List (Nat × Int)} (hs : RSpine F sp)
    (hd : (idxsF F).Nodup) : ∀ pr ∈ sp, levelIdx F pr.1 = pr.2 := by
  intro pr hpr
  rcases RSpine_find hs hd pr hpr with ⟨tx, ln, cs, hf⟩
  simp [levelIdx, hf]

/-- A dict is `==`-equal to itself. -/
theorem itemEqIdx_self {F : List ITree} {p : Nat} {a : ITree}
    (h : findF p F = some a) : itemEqIdx F p p = true := by
  simp [itemEqIdx, h, ttreeBeq_refl]

/-- Dicts whose levels differ are not `==`-equal. -/
theorem itemEqIdx_of_level_ne {F : List ITree} {p q : Nat}
    (hp : (findF p F).isSome) (hq : (findF q F).isSome)
    (hne : levelIdx F p ≠ levelIdx F q) : itemEqIdx F p q = false := by
  rcases Option.isSome_iff_exists.mp hp with ⟨a, ha⟩
  rcases Option.isSome_iff_exists.mp hq with ⟨b, hb⟩
  cases a with
  | node ia la ta na ca =>
    cases b with
    | node ib lb tb nb cb =>
      cases hbv : itemEqIdx F p q
      · rfl
      · exfalso
        rw [itemEqIdx, ha, hb] at hbv
        have : la = lb := ttreeBeq_level (by simpa [stripT] using hbv)
        rw [levelIdx, ha, levelIdx, hb] at hne
        exact hne this

/-- If every entry's level is below the threshold, the pop loop removes
nothing, wherever its iterator stands. -/
theorem popParentsGo_no_pop {F : List ITree} {l : Int} {ps : List Nat}
    (h : ∀ p ∈ ps, levelIdx F p < l) : ∀ i, popParentsGo F l ps i = ps := by
  intro i
  induction i with
  | zero => rfl
  | succ i ih =>
    rw [popParentsGo]
    by_cases hlt : i < ps.length
    · rw [dif_pos hlt, if_neg (not_le.mpr (h (ps.get ⟨i, hlt⟩) (ps.get_mem _ _)))]
      exact ih
    · rw [dif_neg hlt]

/-- `List.findIdx?` on a list whose last element is the first match. -/
theorem findIdx?_append_last {α : Type} (p : α → Bool) :
    ∀ (qs : List α) (a : α) (i : Nat), (∀ q ∈ qs, p q = false) → p a = true →
    List.findIdx? p (qs ++ [a]) i = some (i + qs.length) := by
  intro qs
  induction qs with
  | nil => intro a i _ ha; simp [List.findIdx?_cons, ha]
  | cons x xs ih =>
    intro a i hq ha
    simp only [List.cons_append, List.findIdx?_cons, hq x (by simp)]
    rw [if_neg (by simp [hq x (by simp)])]
    rw [ih a (i + 1) (fun q hqq => hq q (by simp [hqq])) ha]
    congr 1
    simp only [List.length_cons]
    omega

/-- The element at position `qs.length` of `qs ++ [a]` is `a`. -/
theorem get_append_last {α : Type} (qs : List α) (a : α) (h : qs.length < (qs ++ [a]).length) :
    (qs ++ [a]).get ⟨qs.length, h⟩ = a := by
  induction qs with
  | nil => rfl
  | cons x xs ih =>
    have h2 : xs.length < (xs ++ [a]).length := by simp
    simp only [List.cons_append, List.length_cons, List.get_cons_succ]
    exact ih h2

/-- With strictly increasing levels and all entries present in the forest,
the reversed-iteration pop loop keeps exactly the entries whose level is
below the threshold. -/
theorem popParents_filter {F : List ITree} {l : Int} :
    ∀ ps : List Nat,
    (ps.map (levelIdx F)).Pairwise (· < ·) →
    (∀ p ∈ ps, (findF p F).isSome) →
    popParents F l ps = ps.filter (fun p => levelIdx F p < l) := by
  intro ps
  induction ps using List.reverseRecOn with
  | nil => intro _ _; rfl
  | append_singleton qs p ih =>
    intro hpw hfound
    have hqs_lt : ∀ q ∈ qs, levelIdx F q < levelIdx F p := by
      intro q hq
      have := (List.pairwise_append.mp (by simpa [List.map_append] using hpw)).2.2
      exact this (levelIdx F q) (List.mem_map_of_mem _ hq) (levelIdx F p) (by simp)
    have hpw_qs : (qs.map (levelIdx F)).Pairwise (· < ·) :=
      (List.pairwise_append.mp (by simpa [List.map_append] using hpw)).1
    have hfound_qs : ∀ q ∈ qs, (findF q F).isSome := fun q hq =>
      hfound q (by simp [hq])
    have hlen : (qs ++ [p]).length = qs.length + 1 := by simp
    have hget : ∀ h, (qs ++ [p]).get ⟨qs.length, h⟩ = p := fun h => get_append_last qs p h
    rw [popParents, hlen, popParentsGo, dif_pos (by simp), hget]
    by_cases hlp : levelIdx F p < l
    · rw [if_neg (not_le.mpr hlp)]
      have hall : ∀ q ∈ qs ++ [p], levelIdx F q < l := by
        intro q hq
        rcases List.mem_append.mp hq with hq | hq
        · exact lt_trans (hqs_lt q hq) hlp
        · simp at hq; subst hq; exact hlp
      rw [popParentsGo_no_pop hall]
      rw [List.filter_eq_self.mpr (fun q hq => by simpa using hall q hq)]
    · rw [if_pos (not_lt.mp hlp)]
      have hfidx : (qs ++ [p]).findIdx? (fun q => itemEqIdx F q p) = some qs.length := by
        have := findIdx?_append_last (fun q => itemEqIdx F q p) qs p 0
          (fun q hq => itemEqIdx_of_level_ne (hfound q (by simp [hq])) (hfound p (by simp))
            (ne_of_lt (hqs_lt q hq)))
          (by rcases Option.isSome_iff_exists.mp (hfound p (by simp)) with ⟨a, ha⟩
              exact itemEqIdx_self ha)
        simpa using this
      have htake : (qs ++ [p]).take qs.length = qs := List.take_left qs [p]
      have hdrop : (qs ++ [p]).drop (qs.length + 1) = [] := by
        rw [List.drop_append 1]; rfl
      simp only [hfidx, htake, hdrop, List.append_nil]
      rw [show popParentsGo F l qs qs.length = popParents F l qs from rfl]
      rw [ih hpw_qs hfound_qs, List.filter_append]
      simp [hlp]

/-- `specAttach` descends into the last root when its level is lower. -/
theorem specAttach_into {r : HRec} (ys : List TTree) {lv : Int} {tx : String}
    {ln : Nat} {cs : List TTree} (h : lv < r.level) :
    specAttach r (ys ++ [TTree.node lv tx ln cs]) =
      ys ++ [TTree.node lv tx ln (specAttach r cs)] := by
  rw [specAttach_append]
  simp [specAttachLast, h]

/-- `specAttach` starts a new sibling when the last root's level is not
lower. -/
theorem specAttach_beside {r : HRec} (ys : List TTree) {lv : Int} {tx : String}
    {ln : Nat} {cs : List TTree} (h : ¬ lv < r.level) :
    specAttach r (ys ++ [TTree.node lv tx ln cs]) =
      ys ++ [TTree.node lv tx ln cs, TTree.leaf r] := by
  rw [specAttach_append]
  simp [specAttachLast, h]

/-- Decomposing duplicate-freeness over a forest ending in one more root. -/
theorem nodup_parts {F0 : List ITree} {i : Nat} {lv : Int} {tx : String} {ln : Nat}
    {cs : List ITree} (hd : (idxsF (F0 ++ [ITree.node i lv tx ln cs])).Nodup) :
    (idxsF F0).Nodup ∧ (idxsF cs).Nodup ∧ i ∉ idxsF F0 ∧ i ∉ idxsF cs ∧
      ∀ j ∈ idxsF cs, j ∉ idxsF F0 := by
  rw [idxsF_append] at hd
  rcases List.nodup_append.mp hd with ⟨h0, h1, hdisj⟩
  have h1b : (i :: idxsF cs).Nodup := by simpa [idxsF, idxsT] using h1
  rcases List.nodup_cons.mp h1b with ⟨hic, hcs⟩
  refine ⟨h0, hcs, ?_, hic, ?_⟩
  · intro hmem
    exact hdisj hmem (by simp [idxsF, idxsT])
  · intro j hj hmem
    exact hdisj hmem (by simp [idxsF, idxsT, hj])

/-- Attaching below an identity that lives in the last root's subtree. -/
theorem attachAtF_last_node {F0 : List ITree} {i : Nat} {lv : Int} {tx : String}
    {ln : Nat} {cs : List ITree} {b : Nat} {x : ITree}
    (hbF0 : b ∉ idxsF F0) (hbi : ¬ i = b) :
    attachAtF b x (F0 ++ [ITree.node i lv tx ln cs]) =
      F0 ++ [ITree.node i lv tx ln (attachAtF b x cs)] := by
  rw [attachAtF_append, attachAtF_frame b x F0 hbF0]
  simp [attachAtF, attachAtT, hbi]

/-- Attaching a record whose level lies above every spine level: the new leaf
becomes the last child of the spine's bottom dict, which is exactly where
`specAttach` puts it. -/
theorem attach_bottom (r : HRec) (xi : Nat) :
    ∀ {F : List ITree} {sp : List (Nat × Int)}, RSpine F sp →
    sp ≠ [] →
    (∀ e ∈ sp, e.2 < r.level) →
    (idxsF F).Nodup →
    xi ∉ idxsF F →
    ∀ b : Nat, sp.getLast?.map Prod.fst = some b →
    stripF (attachAtF b (ITree.node xi r.level r.text r.line_number []) F) =
      specAttach r (stripF F) ∧
    RSpine (attachAtF b (ITree.node xi r.level r.text r.line_number []) F)
      (sp ++ [(xi, r.level)]) ∧
    idxsF (attachAtF b (ITree.node xi r.level r.text r.line_number []) F) =
      idxsF F ++ [xi] := by
  intro F sp hs
  induction hs with
  | nil => intro hne; exact absurd rfl hne
  | cons F0 i lv tx ln cs sp' hcs ih =>
    intro _ hlow hd hfresh b hb
    have hlv : lv < r.level := hlow (i, lv) (by simp)
    rcases nodup_parts hd with ⟨hd0, hdcs, hiF0, hics, hdisj⟩
    have hxiF0 : xi ∉ idxsF F0 := fun hm => hfresh (by simp [idxsF_append, hm])
    have hxii : ¬ xi = i := by
      intro e; subst e; exact hfresh (by simp [idxsF_append, idxsF, idxsT])
    have hxics : xi ∉ idxsF cs := fun hm =>
      hfresh (by simp [idxsF_append, idxsF, idxsT, hm])
    cases sp' with
    | nil =>
      cases hcs
      have hbi : b = i := by simp at hb; omega
      subst hbi
      have hattach : attachAtF b (ITree.node xi r.level r.text r.line_number [])
          (F0 ++ [ITree.node b lv tx ln []]) =
          F0 ++ [ITree.node b lv tx ln [ITree.node xi r.level r.text r.line_number []]] := by
        rw [attachAtF_append, attachAtF_frame _ _ F0 hiF0]
        simp [attachAtF, attachAtT]
      rw [hattach]
      refine ⟨?_, ?_, ?_⟩
      · rw [stripF_append, stripF_append]
        rw [show stripF [ITree.node b lv tx ln []] = [TTree.node lv tx ln []] from rfl]
        rw [specAttach_into (stripF F0) hlv]
        rfl
      · exact RSpine.cons F0 b lv tx ln _ _
          (RSpine.cons [] xi r.level r.text r.line_number [] [] RSpine.nil)
      · simp [idxsF_append, idxsF, idxsT]
    | cons e sp'' =>
      have hb' : (e :: sp'').getLast?.map Prod.fst = some b := by
        simpa [List.getLast?_cons_cons] using hb
      have hbcs : b ∈ idxsF cs := by
        apply RSpine_idxs hcs
        have : (e :: sp'').getLast? = some ((e :: sp'').getLast (by simp)) :=
          List.getLast?_eq_getLast _ _
        rw [this] at hb'
        simp at hb'
        rw [← hb']
        exact List.mem_map_of_mem _ (List.getLast_mem _)
      have hbF0 : b ∉ idxsF F0 := fun hm => hdisj b hbcs hm
      have hbi : ¬ i = b := by
        intro e2; subst e2; exact hics hbcs
      rcases ih (by simp) (fun e2 he2 => hlow e2 (by simp [he2])) hdcs hxics b hb' with
        ⟨ihsF, ihsp, ihidx⟩
      rw [attachAtF_last_node hbF0 hbi]
      refine ⟨?_, ?_, ?_⟩
      · rw [stripF_append, stripF_append]
        rw [show stripF [ITree.node i lv tx ln cs] = [TTree.node lv tx ln (stripF cs)] from rfl]
        rw [specAttach_into (stripF F0) hlv]
        rw [show stripF [ITree.node i lv tx ln (attachAtF b (ITree.node xi r.level r.text r.line_number []) cs)] =
          [TTree.node lv tx ln (stripF (attachAtF b (ITree.node xi r.level r.text r.line_number []) cs))] from rfl]
        rw [ihsF]
      · exact RSpine.cons F0 i lv tx ln _ _ ihsp
      · simp [idxsF_append, idxsF, idxsT, ihidx]

/-- Attaching a record whose level does not exceed even the first spine
level: the record becomes a fresh last root, as `specAttach` prescribes. -/
theorem attach_root (r : HRec) (xi : Nat) {F : List ITree} {sp : List (Nat × Int)}
    (hs : RSpine F sp) (hne : sp ≠ [])
    (hhead : ∀ e, sp.head? = some e → r.level ≤ e.2) :
    stripF (F ++ [ITree.node xi r.level r.text r.line_number []]) =
      specAttach r (stripF F) ∧
    RSpine (F ++ [ITree.node xi r.level r.text r.line_number []]) [(xi, r.level)] ∧
    idxsF (F ++ [ITree.node xi r.level r.text r.line_number []]) = idxsF F ++ [xi] := by
  cases hs with
  | nil => exact absurd rfl hne
  | cons F0 i lv tx ln cs sp' hcs =>
    have hlv : r.level ≤ lv := hhead (i, lv) (by simp)
    refine ⟨?_, ?_, ?_⟩
    · have hF : stripF (F0 ++ [ITree.node i lv tx ln cs]) =
          stripF F0 ++ [TTree.node lv tx ln (stripF cs)] := by
        rw [stripF_append]
        rfl
      have hFx : stripF ((F0 ++ [ITree.node i lv tx ln cs]) ++
          [ITree.node xi r.level r.text r.line_number []]) =
          (stripF F0 ++ [TTree.node lv tx ln (stripF cs)]) ++ [TTree.leaf r] := by
        rw [stripF_append, hF]
        rfl
      rw [hFx, hF, specAttach_beside (stripF F0) (not_lt.mpr hlv)]
      simp
    · exact RSpine.cons (F0 ++ [ITree.node i lv tx ln cs]) xi r.level r.text
        r.line_number [] [] RSpine.nil
    · simp [idxsF_append, idxsF, idxsT]

/-- Attaching a record whose level sits between the `keep` prefix of the
spine (all strictly lower) and the remaining spine (starting at or above it):
the leaf joins the children of the last `keep` dict, right after the subtree
holding the rest of the spine - exactly the sibling `specAttach` creates. -/
theorem attach_keep (r : HRec) (xi : Nat) :
    ∀ {F : List ITree} {sp : List (Nat × Int)}, RSpine F sp →
    ∀ keep rest : List (Nat × Int), sp = keep ++ rest →
    keep ≠ [] → rest ≠ [] →
    (∀ e ∈ keep, e.2 < r.level) →
    (∀ e, rest.head? = some e → r.level ≤ e.2) →
    (idxsF F).Nodup →
    xi ∉ idxsF F →
    ∀ p : Nat, keep.getLast?.map Prod.fst = some p →
    stripF (attachAtF p (ITree.node xi r.level r.text r.line_number []) F) =
      specAttach r (stripF F) ∧
    RSpine (attachAtF p (ITree.node xi r.level r.text r.line_number []) F)
      (keep ++ [(xi, r.level)]) ∧
    idxsF (attachAtF p (ITree.node xi r.level r.text r.line_number []) F) =
      idxsF F ++ [xi] := by
  intro F sp hs
  induction hs with
  | nil =>
    intro keep rest hsp hkeep hrest _ _ _ _ p _
    exact absurd (List.append_eq_nil.mp hsp.symm).1 hkeep
  | cons F0 i lv tx ln cs sp' hcs ih =>
    intro keep rest hsp hkeep hrest hklow hrhigh hd hfresh p hp
    rcases nodup_parts hd with ⟨hd0, hdcs, hiF0, hics, hdisj⟩
    have hxiF0 : xi ∉ idxsF F0 := fun hm => hfresh (by simp [idxsF_append, hm])
    have hxics : xi ∉ idxsF cs := fun hm =>
      hfresh (by simp [idxsF_append, idxsF, idxsT, hm])
    cases keep with
    | nil => exact absurd rfl hkeep
    | cons k keep' =>
      rw [List.cons_append] at hsp
      injection hsp with hk1 hk2
      subst hk1
      have hlv : lv < r.level := hklow (i, lv) (by simp)
      cases keep' with
      | nil =>
        have hpi : p = i := by simp at hp; omega
        subst hpi
        have hsp' : sp' = rest := by simpa using hk2
        cases hcs with
        | nil =>
          exfalso
          exact hrest (by rw [← hsp'])
        | cons cs0 q qlv qt qn qcs sp'' hqcs =>
          have hqhigh : r.level ≤ qlv := by
            apply hrhigh (q, qlv)
            rw [← hsp']
            simp
          have hattach : attachAtF p (ITree.node xi r.level r.text r.line_number [])
              (F0 ++ [ITree.node p lv tx ln (cs0 ++ [ITree.node q qlv qt qn qcs])]) =
              F0 ++ [ITree.node p lv tx ln ((cs0 ++ [ITree.node q qlv qt qn qcs]) ++
                [ITree.node xi r.level r.text r.line_number []])] := by
            rw [attachAtF_append, attachAtF_frame _ _ F0 hiF0]
            simp [attachAtF, attachAtT]
          rw [hattach]
          refine ⟨?_, ?_, ?_⟩
          · rw [stripF_append, stripF_append]
            rw [show stripF [ITree.node p lv tx ln (cs0 ++ [ITree.node q qlv qt qn qcs])] =
              [TTree.node lv tx ln (stripF (cs0 ++ [ITree.node q qlv qt qn qcs]))] from rfl]
            rw [specAttach_into (stripF F0) hlv]
            rw [show stripF [ITree.node p lv tx ln ((cs0 ++ [ITree.node q qlv qt qn qcs]) ++
                [ITree.node xi r.level r.text r.line_number []])] =
              [TTree.node lv tx ln (stripF ((cs0 ++ [ITree.node q qlv qt qn qcs]) ++
                [ITree.node xi r.level r.text r.line_number []]))] from rfl]
            rw [stripF_append cs0, stripF_append, stripF_append cs0]
            rw [show stripF [ITree.node q qlv qt qn qcs] =
              [TTree.node qlv qt qn (stripF qcs)] from rfl]
            rw [specAttach_beside (stripF cs0) (not_lt.mpr hqhigh)]
            simp [stripF, stripT, TTree.leaf]
          · exact RSpine.cons F0 p lv tx ln _ _
              (RSpine.cons _ xi r.level r.text r.line_number [] [] RSpine.nil)
          · simp [idxsF_append, idxsF, idxsT]
      | cons k2 keep'' =>
        have hp' : ((k2 :: keep'') : List (Nat × Int)).getLast?.map Prod.fst = some p := by
          simpa [List.getLast?_cons_cons] using hp
        have hpcs : p ∈ idxsF cs := by
          apply RSpine_idxs hcs
          rw [hk2]
          have : ((k2 :: keep'') : List (Nat × Int)).getLast? =
              some ((k2 :: keep'').getLast (by simp)) := List.getLast?_eq_getLast _ _
          rw [this] at hp'
          simp at hp'
          rw [← hp']
          refine List.mem_map_of_mem _ ?_
          exact List.mem_append.mpr (Or.inl (List.getLast_mem _))
        have hpF0 : p ∉ idxsF F0 := fun hm => hdisj p hpcs hm
        have hpi : ¬ i = p := by
          intro e2; subst e2; exact hics hpcs
        rcases ih (k2 :: keep'') rest hk2 (by simp) hrest
          (fun e2 he2 => hklow e2 (by simp [he2]))
          hrhigh hdcs hxics p hp' with ⟨ihsF, ihsp, ihidx⟩
        rw [attachAtF_last_node hpF0 hpi]
        refine ⟨?_, ?_, ?_⟩
        · rw [stripF_append, stripF_append]
          rw [show stripF [ITree.node i lv tx ln cs] =
            [TTree.node lv tx ln (stripF cs)] from rfl]
          rw [specAttach_into (stripF F0) hlv]
          rw [show stripF [ITree.node i lv tx ln
              (attachAtF p (ITree.node xi r.level r.text r.line_number []) cs)] =
            [TTree.node lv tx ln (stripF
              (attachAtF p (ITree.node xi r.level r.text r.line_number []) cs))] from rfl]
          rw [ihsF]
        · exact RSpine.cons F0 i lv tx ln _ _ ihsp
        · simp [idxsF_append, idxsF, idxsT, ihidx]

/-- A list whose image ends in a singleton splits the same way. -/
theorem map_eq_append_singleton {α β : Type} {f : α → β} {l : List α} {ys : List β}
    {y : β} (h : l.map f = ys ++ [y]) :
    ∃ l0 a, l = l0 ++ [a] ∧ l0.map f = ys ∧ f a = y := by
  induction l using List.reverseRecOn with
  | nil => simp at h
  | append_singleton l0 a _ =>
    rw [List.map_append] at h
    rcases List.append_inj' h (by simp) with ⟨h1, h2⟩
    exact ⟨l0, a, rfl, h1, by simpa using h2⟩

/-- In a strictly increasing level list, the entries below a threshold form a
prefix and everything after them lies at or above it. -/
theorem filter_sorted_prefix {sp : List (Nat × Int)} {l : Int}
    (h : (sp.map Prod.snd).Pairwise (· < ·)) :
    ∃ tail, sp = sp.filter (fun e => e.2 < l) ++ tail ∧ ∀ e ∈ tail, l ≤ e.2 := by
  induction sp with
  | nil => exact ⟨[], rfl, by simp⟩
  | cons e sp' ih =>
    rw [List.map_cons] at h
    rcases List.pairwise_cons.mp h with ⟨hrel, hsp'⟩
    by_cases he : e.2 < l
    · rcases ih hsp' with ⟨tail, h1, h2⟩
      refine ⟨tail, ?_, h2⟩
      rw [List.filter_cons_of_pos (by simpa using he), List.cons_append, ← h1]
    · refine ⟨e :: sp', ?_, ?_⟩
      · rw [List.filter_cons_of_neg (by simpa using he)]
        have : sp'.filter (fun e => decide (e.2 < l)) = [] := by
          rw [List.filter_eq_nil_iff]
          intro a ha
          have : e.2 < a.2 := hrel a.2 (List.mem_map_of_mem _ ha)
          simp only [decide_eq_true_eq]
          omega
        simp [this]
      · intro e2 he2
        rcases List.mem_cons.mp he2 with he2 | he2
        · subst he2; omega
        · have : e.2 < e2.2 := hrel e2.2 (List.mem_map_of_mem _ he2)
          omega

/-- `levelAt` reads the record's level. -/
theorem levelAt_get {items : List HRec} {k : Nat} (h : k < items.length) :
    levelAt items k = (items.get ⟨k, h⟩).level := by
  rw [levelAt, List.get?_eq_get h]

/-- `leafI` builds the fresh dict from the record at `k`. -/
theorem leafI_get {items : List HRec} {k : Nat} (h : k < items.length) :
    leafI items k = ITree.node k (items.get ⟨k, h⟩).level (items.get ⟨k, h⟩).text
      (items.get ⟨k, h⟩).line_number [] := by
  rw [leafI, List.get?_eq_get h]

/-- One more record extends the specification nest by one attach. -/
theorem specNest_take_succ {items : List HRec} {k : Nat} (h : k + 1 < items.length) :
    specNest (items.take (k + 2)) =
      specAttach (items.get ⟨k + 1, h⟩) (specNest (items.take (k + 1))) := by
  rw [specNest, specNest, show k + 2 = (k + 1) + 1 from rfl, List.take_succ]
  rw [List.getElem?_eq_getElem h]
  rw [List.foldl_append]
  rfl

/-- Appending a fresh identity keeps the identity list duplicate-free. -/
theorem nodup_snoc {xs : List Nat} {a : Nat} (hnd : xs.Nodup) (hf : a ∉ xs) :
    (xs ++ [a]).Nodup := by
  rw [List.nodup_append]
  refine ⟨hnd, by simp, ?_⟩
  intro b hb hb2
  simp at hb2
  subst hb2
  exact hf hb

/-- The loop body of `nest_toc_items` preserves the invariant. -/
theorem nestStep_inv {items : List HRec} {k : Nat} {st : NestState}
    (hinv : INV items k st) (hk : k + 1 < items.length) :
    INV items (k + 1) (nestStep items st (k + 1)) := by
  rcases hinv with ⟨sp, hmap, hrs, hpw, hlast, hll, hlastlv, hstrip, hnd, hbound⟩
  have hlevel : levelAt items (k + 1) = (items.get ⟨k + 1, hk⟩).level := levelAt_get hk
  set r := items.get ⟨k + 1, hk⟩ with hrdef
  have hleaf : leafI items (k + 1) =
      ITree.node (k + 1) r.level r.text r.line_number [] := leafI_get hk
  rcases map_eq_append_singleton hmap with ⟨spP, e, hspdec, hspPmap, hefst⟩
  have hesnd : e.2 = st.last_level := by
    have h2 := hlastlv
    rw [hspdec, List.getLast?_concat] at h2
    simpa using h2
  have hfresh : (k + 1) ∉ idxsF st.processed := by
    intro hm
    have := hbound _ hm
    omega
  have hlv := RSpine_levelIdx hrs hnd
  have hpw2 := hpw
  rw [hspdec, List.map_append] at hpw2
  rcases List.pairwise_append.mp hpw2 with ⟨hpwP, _, hrelP⟩
  have hrelP2 : ∀ a ∈ spP, a.2 < st.last_level := by
    intro a ha
    have := hrelP a.2 (List.mem_map_of_mem _ ha) e.2 (by simp)
    omega
  have hspne : sp ≠ [] := by rw [hspdec]; simp
  have hmapLevels : st.parent_list.map (levelIdx st.processed) = spP.map Prod.snd := by
    rw [← hspPmap, List.map_map]
    apply List.map_congr_left
    intro a ha
    exact hlv a (by rw [hspdec]; exact List.mem_append.mpr (Or.inl ha))
  have hfoundP : ∀ p ∈ st.parent_list, (findF p st.processed).isSome := by
    intro p hp
    rw [← hspPmap] at hp
    rcases List.mem_map.mp hp with ⟨a, ha, hfa⟩
    rcases RSpine_find hrs hnd a (by rw [hspdec]; exact List.mem_append.mpr (Or.inl ha)) with
      ⟨tx, ln, cs, hf⟩
    rw [← hfa, hf]
    rfl
  have hgetlast_sp : sp.getLast?.map Prod.fst = some st.last_item := by
    rw [hspdec, List.getLast?_concat]
    simpa using hefst
  by_cases hlt : r.level < st.last_level
  · -- level drop: the pop loop runs, then the equal-level branch
    have hpop : (if st.parent_list ≠ [] then popParents st.processed r.level st.parent_list
        else st.parent_list) =
        (spP.filter (fun e2 => e2.2 < r.level)).map Prod.fst := by
      have hfilters : st.parent_list.filter (fun p => levelIdx st.processed p < r.level) =
          (spP.filter (fun e2 => e2.2 < r.level)).map Prod.fst := by
        rw [← hspPmap, List.filter_map]
        congr 1
        apply List.filter_congr
        intro a ha
        have := hlv a (by rw [hspdec]; exact List.mem_append.mpr (Or.inl ha))
        simp [Function.comp, this]
      by_cases hple : st.parent_list = []
      · have hspPe : spP = [] := by
          have h3 := hspPmap
          rw [hple] at h3
          exact List.map_eq_nil_iff.mp h3
        rw [if_neg (by simp [hple]), hple, hspPe]
        simp
      · rw [if_pos hple]
        rw [popParents_filter st.parent_list (by rw [hmapLevels]; exact hpwP) hfoundP]
        exact hfilters
    rcases filter_sorted_prefix (l := r.level) hpwP with ⟨tailP, hsplit, htail⟩
    by_cases hke : spP.filter (fun e2 => e2.2 < r.level) = []
    · -- everything pops: the item becomes a fresh root
      have hstep : nestStep items st (k + 1) =
          ⟨st.processed ++ [ITree.node (k + 1) r.level r.text r.line_number []],
            [], k + 1, r.level⟩ := by
        simp only [nestStep]
        rw [hlevel, if_pos hlt, hpop, hke, hleaf]
        simp
      rw [hstep]
      have hall : ∀ e0 ∈ sp, r.level ≤ e0.2 := by
        intro e0 he0
        rw [hspdec] at he0
        rcases List.mem_append.mp he0 with h | h
        · have h4 := hsplit
          rw [hke] at h4
          simp at h4
          exact htail e0 (h4 ▸ h)
        · simp at h
          subst h
          omega
      rcases attach_root r (k + 1) hrs hspne
        (fun e0 he0 => hall e0 (List.mem_of_mem_head? he0)) with ⟨hA1, hA2, hA3⟩
      refine ⟨[(k + 1, r.level)], by simp, hA2, by simp, rfl, hlevel.symm, by simp, ?_, ?_, ?_⟩
      · rw [hA1, hstrip, specNest_take_succ hk]
      · rw [hA3]
        exact nodup_snoc hnd hfresh
      · rw [hA3]
        intro j hj
        rcases List.mem_append.mp hj with hj | hj
        · have := hbound j hj; omega
        · simp at hj; omega
    · -- the kept parents stay open; attach beneath the deepest kept dict
      have hglK := List.getLast?_eq_getLast _ hke
      set lastK := (spP.filter (fun e2 => e2.2 < r.level)).getLast hke with hlastK
      have hgetl : ((spP.filter (fun e2 => e2.2 < r.level)).map Prod.fst).getLast? =
          some lastK.1 := by
        rw [List.getLast?_map, hglK]
        rfl
      have hstep : nestStep items st (k + 1) =
          ⟨attachAtF lastK.1 (ITree.node (k + 1) r.level r.text r.line_number [])
              st.processed,
            (spP.filter (fun e2 => e2.2 < r.level)).map Prod.fst, k + 1, r.level⟩ := by
        simp only [nestStep]
        rw [hlevel, if_pos hlt, hpop, hleaf]
        simp only [hgetl]
        simp
      rw [hstep]
      have hkeepSp : sp = (spP.filter (fun e2 => e2.2 < r.level)) ++ (tailP ++ [e]) := by
        rw [hspdec]
        conv =>
          lhs
          rw [hsplit]
        rw [List.append_assoc]
      have hresthigh : ∀ e0 ∈ tailP ++ [e], r.level ≤ e0.2 := by
        intro e0 he0
        rcases List.mem_append.mp he0 with h | h
        · exact htail e0 h
        · simp at h; subst h; omega
      rcases attach_keep r (k + 1) hrs (spP.filter (fun e2 => e2.2 < r.level))
        (tailP ++ [e]) hkeepSp hke (by simp)
        (fun e2 he2 => by
          have := List.mem_filter.mp he2
          simpa using this.2)
        (fun e0 he0 => hresthigh e0 (List.mem_of_mem_head? he0))
        hnd hfresh lastK.1 (by rw [hglK]; rfl) with ⟨hB1, hB2, hB3⟩
      have hkpw : (((spP.filter (fun e2 => e2.2 < r.level)) ++ [(k + 1, r.level)]).map
          Prod.snd).Pairwise (· < ·) := by
        rw [List.map_append]
        rw [List.pairwise_append]
        refine ⟨List.Pairwise.sublist (List.Sublist.map _ (List.filter_sublist spP)) hpwP,
          by simp, ?_⟩
        intro a ha b hb
        simp at hb
        subst hb
        rcases List.mem_map.mp ha with ⟨e2, he2, hae⟩
        have := List.mem_filter.mp he2
        rw [← hae]
        simpa using this.2
      refine ⟨(spP.filter (fun e2 => e2.2 < r.level)) ++ [(k + 1, r.level)],
        by simp, hB2, hkpw, rfl, hlevel.symm, by rw [List.getLast?_concat]; rfl, ?_, ?_, ?_⟩
      · rw [hB1, hstrip, specNest_take_succ hk]
      · rw [hB3]
        exact nodup_snoc hnd hfresh
      · rw [hB3]
        intro j hj
        rcases List.mem_append.mp hj with hj | hj
        · have := hbound j hj; omega
        · simp at hj; omega
  · by_cases heq : r.level = st.last_level
    · -- equal level: sibling of the previous item
      by_cases hple : st.parent_list = []
      · have hspPe : spP = [] := by
          have h3 := hspPmap
          rw [hple] at h3
          exact List.map_eq_nil_iff.mp h3
        have hstep : nestStep items st (k + 1) =
            ⟨st.processed ++ [ITree.node (k + 1) r.level r.text r.line_number []],
              st.parent_list, k + 1, st.last_level⟩ := by
          simp only [nestStep]
          rw [hlevel, if_neg hlt, if_pos heq, hple, hleaf]
          simp
        rw [hstep]
        have hall : ∀ e0 ∈ sp, r.level ≤ e0.2 := by
          intro e0 he0
          rw [hspdec, hspPe] at he0
          simp at he0
          subst he0
          omega
        rcases attach_root r (k + 1) hrs hspne
          (fun e0 he0 => hall e0 (List.mem_of_mem_head? he0)) with ⟨hA1, hA2, hA3⟩
        refine ⟨[(k + 1, r.level)], by simp [hple], hA2, by simp, rfl,
          by rw [← heq]; exact hlevel.symm, by simp [heq], ?_, ?_, ?_⟩
        · rw [hA1, hstrip, specNest_take_succ hk]
        · rw [hA3]
          exact nodup_snoc hnd hfresh
        · rw [hA3]
          intro j hj
          rcases List.mem_append.mp hj with hj | hj
          · have := hbound j hj; omega
          · simp at hj; omega
      · -- attach beneath the deepest open parent
        have hspPne : spP ≠ [] := by
          intro h3
          rw [h3] at hspPmap
          exact hple (by simpa using hspPmap.symm)
        have hglP := List.getLast?_eq_getLast _ hspPne
        set lastP := spP.getLast hspPne with hlastP
        have hgetl : st.parent_list.getLast? = some lastP.1 := by
          rw [← hspPmap, List.getLast?_map, hglP]
          rfl
        have hstep : nestStep items st (k + 1) =
            ⟨attachAtF lastP.1 (ITree.node (k + 1) r.level r.text r.line_number [])
                st.processed,
              st.parent_list, k + 1, st.last_level⟩ := by
          simp only [nestStep]
          rw [hlevel, if_neg hlt, if_pos heq, hleaf]
          simp only [hgetl]
        rw [hstep]
        rcases attach_keep r (k + 1) hrs spP [e] hspdec hspPne (by simp)
          (fun e2 he2 => by have := hrelP2 e2 he2; omega)
          (fun e0 he0 => by
            have h4 : e0 = e := by simpa using List.mem_of_mem_head? he0
            subst h4
            omega)
          hnd hfresh lastP.1 (by rw [hglP]; rfl) with ⟨hB1, hB2, hB3⟩
        have hkpw : ((spP ++ [(k + 1, r.level)]).map Prod.snd).Pairwise (· < ·) := by
          rw [List.map_append, List.pairwise_append]
          refine ⟨hpwP, by simp, ?_⟩
          intro a ha b hb
          simp at hb
          subst hb
          rcases List.mem_map.mp ha with ⟨e2, he2, hae⟩
          have := hrelP2 e2 he2
          omega
        refine ⟨spP ++ [(k + 1, r.level)], by simp [hspPmap], hB2, hkpw, rfl,
          by rw [← heq]; exact hlevel.symm, by rw [List.getLast?_concat]; simp [heq], ?_, ?_, ?_⟩
        · rw [hB1, hstrip, specNest_take_succ hk]
        · rw [hB3]
          exact nodup_snoc hnd hfresh
        · rw [hB3]
          intro j hj
          rcases List.mem_append.mp hj with hj | hj
          · have := hbound j hj; omega
          · simp at hj; omega
    · -- level increase: child of the previous item, which opens as a parent
      have hgt : st.last_level < r.level := by
        rcases lt_trichotomy r.level st.last_level with h | h | h
        · exact absurd h hlt
        · exact absurd h heq
        · exact h
      have hstep : nestStep items st (k + 1) =
          ⟨attachAtF st.last_item (ITree.node (k + 1) r.level r.text r.line_number [])
              st.processed,
            st.parent_list ++ [st.last_item], k + 1, r.level⟩ := by
        simp only [nestStep]
        rw [hlevel, if_neg hlt, if_neg heq, hleaf]
      rw [hstep]
      have hlow : ∀ e0 ∈ sp, e0.2 < r.level := by
        intro e0 he0
        rw [hspdec] at he0
        rcases List.mem_append.mp he0 with h | h
        · have := hrelP2 e0 h; omega
        · simp at h; subst h; omega
      rcases attach_bottom r (k + 1) hrs hspne hlow hnd hfresh st.last_item hgetlast_sp with
        ⟨hC1, hC2, hC3⟩
      have hkpw : ((sp ++ [(k + 1, r.level)]).map Prod.snd).Pairwise (· < ·) := by
        rw [List.map_append, List.pairwise_append]
        refine ⟨hpw, by simp, ?_⟩
        intro a ha b hb
        simp at hb
        subst hb
        rcases List.mem_map.mp ha with ⟨e2, he2, hae⟩
        have := hlow e2 he2
        omega
      refine ⟨sp ++ [(k + 1, r.level)], by simp [hmap], hC2, hkpw, rfl,
        hlevel.symm, by rw [List.getLast?_concat]; rfl, ?_, ?_, ?_⟩
      · rw [hC1, hstrip, specNest_take_succ hk]
      · rw [hC3]
        exact nodup_snoc hnd hfresh
      · rw [hC3]
        intro j hj
        rcases List.mem_append.mp hj with hj | hj
        · have := hbound j hj; omega
        · simp at hj; omega

/-- The invariant holds right after the loop's set-up on the first item. -/
theorem nestInit_inv (r0 : HRec) (rest : List HRec) :
    INV (r0 :: rest) 0 ⟨[leafI (r0 :: rest) 0], [], 0, levelAt (r0 :: rest) 0⟩ := by
  refine ⟨[(0, r0.level)], by simp, ?_, by simp, rfl, rfl, rfl, rfl, by simp [idxsF, idxsT, leafI], ?_⟩
  · exact RSpine.cons [] 0 r0.level r0.text r0.line_number [] [] RSpine.nil
  · intro j hj
    simp [idxsF, idxsT, leafI] at hj
    omega

/-- `nest_toc_items` computes exactly the specification forest: every record
ends up under the nearest preceding record of strictly lower level. -/
theorem nest_eq_specNest (items : List HRec) : nest_toc_items items = specNest items := by
  cases items with
  | nil => rfl
  | cons r0 rest =>
    have hinvN : ∀ m, m ≤ rest.length →
        INV (r0 :: rest) m ((List.range m).foldl
          (fun st j => nestStep (r0 :: rest) st (j + 1))
          ⟨[leafI (r0 :: rest) 0], [], 0, levelAt (r0 :: rest) 0⟩) := by
      intro m
      induction m with
      | zero => intro _; exact nestInit_inv r0 rest
      | succ m ih =>
        intro hm
        rw [List.range_succ, List.foldl_append]
        exact nestStep_inv (ih (by omega)) (by simp; omega)
    rcases hinvN rest.length (le_refl _) with ⟨sp, _, _, _, _, _, _, hstrip, _, _⟩
    rw [nest_toc_items]
    rw [hstrip]
    rw [show rest.length + 1 = (r0 :: rest).length from by simp]
    rw [List.take_length]

/-- Claim C8 (confirmed): `nest_toc_items` sends every heading-record list to
the specification forest - each record nests under the nearest preceding
record of strictly lower level (the forest `specNest` builds by `specAttach`)
- and on `[H1 "A", H2 "B", H2 "C", H1 "D"]` it produces exactly two roots,
`A` with children `B, C` in order and `D` childless. -/
theorem claim_C8 :
    (∀ toc_list : List HRec, nest_toc_items toc_list = specNest toc_list) ∧
    nest_toc_items exSeq =
      [.node 1 "A" 1 [.node 2 "B" 2 [], .node 2 "C" 3 []], .node 1 "D" 4 []] :=
  ⟨nest_eq_specNest, rfl⟩

end Omgfm
